import Mathlib

/-!
Verification of `lvm.py`, a reader/rewriter for LVM2 physical-volume
metadata: label sector scanning, packed little-endian record layouts,
the LVM CRC variant, the configuration-text parser/encoder, and the
checksum-preserving header write path.

Byte streams are modelled as `List Nat` (each element one byte), text as
`List Char`.  Fallible Python code (exceptions) is modelled with
`Option`/`Except`.  Machine integers are `Nat` with explicit `% 2 ^ w`
at the serialization boundary.
-/

namespace Lvm

/-! ### Characters and whitespace

`re.sub` with `\s` in the source matches ASCII whitespace (and some
unicode space, which never occurs in this format); we model the ASCII
whitespace set. -/

def isSpaceChar (c : Char) : Bool :=
  c = ' ' || c = '\t' || c = '\n' || c = '\r' || c = '\x0b' || c = '\x0c'

def isDigitChar (c : Char) : Bool :=
  '0' ≤ c && c ≤ '9'

/-! ### Decimal integers

`str(int)` / `int(str)` from Python.  `intToStr` is the canonical decimal
rendering used by the encoder; `parseIntTok` models `int(token)` on the
tokens the format produces (optional sign then decimal digits; `int()`
raises `ValueError` otherwise, modelled as `none`). -/

def digitChar (d : Nat) : Char := Char.ofNat (48 + d)

/-- Decimal digits of `n`, most significant first.  The first argument
is fuel for structural termination; `n` itself is always enough. -/
def natToDigitsGo : Nat → Nat → List Char
  | 0, n => [digitChar n]
  | f + 1, n =>
    if n < 10 then [digitChar n]
    else natToDigitsGo f (n / 10) ++ [digitChar (n % 10)]

def natToDigits (n : Nat) : List Char := natToDigitsGo n n

def intToStr : Int → List Char
  | Int.ofNat n => natToDigits n
  | Int.negSucc n => '-' :: natToDigits (n + 1)

def parseNatTok (l : List Char) : Option Nat :=
  if l ≠ [] ∧ l.all isDigitChar then
    some (l.foldl (fun a c => 10 * a + (c.toNat - 48)) 0)
  else none

def parseIntTok : List Char → Option Int
  | [] => none
  | '-' :: rest => (parseNatTok rest).map (fun n => -(n : Int))
  | l => (parseNatTok l).map (fun n => (n : Int))

/-! ### The tokenizer of `Metadata.decode_data`

The source applies, in order, the regex substitutions
comment-to-eol removal, open bracket to "bracket space", close bracket
to "space bracket", quote to "space quote space", deletion of equals
signs and commas, whitespace-run collapsing, and removal of one
trailing NUL; then splits on whitespace. -/

/-- Substitution 1: remove each `#` through the first following newline
(the regex needs the newline; a `#` with no later newline survives).
The fuel argument only serves structural termination; the input length
is always enough. -/
def stripCommentsGo : Nat → List Char → List Char
  | 0, l => l
  | _ + 1, [] => []
  | f + 1, c :: rest =>
    if c = '#' ∧ '\n' ∈ rest then
      stripCommentsGo f ((rest.dropWhile (fun d => d ≠ '\n')).tail)
    else
      c :: stripCommentsGo f rest

def stripComments (l : List Char) : List Char := stripCommentsGo l.length l

/-- Substitution 2: open bracket becomes bracket-then-space. -/
def subOpenBr (l : List Char) : List Char :=
  (l.map (fun c => if c = '[' then ['[', ' '] else [c])).flatten

/-- Substitution 3: close bracket becomes space-then-bracket. -/
def subCloseBr (l : List Char) : List Char :=
  (l.map (fun c => if c = ']' then [' ', ']'] else [c])).flatten

/-- Substitution 4: double quote becomes space-quote-space. -/
def subQuote (l : List Char) : List Char :=
  (l.map (fun c => if c = '"' then [' ', '"', ' '] else [c])).flatten

/-- Substitution 5: equals signs and commas are deleted. -/
def delEqComma (l : List Char) : List Char :=
  l.filter (fun c => ¬(c = '=' ∨ c = ','))

/-- Substitution 6: each whitespace run becomes one space. -/
def collapseWs : List Char → List Char
  | [] => []
  | [c] => if isSpaceChar c then [' '] else [c]
  | c :: c' :: rest =>
    if isSpaceChar c then
      if isSpaceChar c' then collapseWs (c' :: rest)
      else ' ' :: collapseWs (c' :: rest)
    else c :: collapseWs (c' :: rest)

/-- Substitution 7: remove a single trailing NUL.  After substitution 6
the text contains no newline, so the regex anchor is plain end-of-string. -/
def dropTrailNul (l : List Char) : List Char :=
  if l.getLast? = some '\x00' then l.dropLast else l

/-- `str.split()` worker: `cur` is the current token, reversed.  A
whitespace character flushes `cur`; the end of input flushes a final
nonempty `cur`. -/
def splitAux : List Char → List Char → List (List Char)
  | [], cur => if cur = [] then [] else [cur.reverse]
  | c :: rest, cur =>
    if isSpaceChar c then
      if cur = [] then splitAux rest [] else cur.reverse :: splitAux rest []
    else splitAux rest (c :: cur)

/-- `str.split()`: split on whitespace runs, dropping empty pieces. -/
def splitTokens (l : List Char) : List (List Char) := splitAux l []

/-- The full tokenizer pipeline of `decode_data`. -/
def tokenize (raw : List Char) : List (List Char) :=
  splitTokens (dropTrailNul (collapseWs (delEqComma (subQuote (subCloseBr
    (subOpenBr (stripComments raw)))))))

/-! ### The metadata value model

Decoded metadata is a nested insertion-ordered mapping from keys to
integers, strings, sequences or sub-mappings (Python `dict`, `int`,
`str`, `list`). -/

inductive PVal where
  | int : Int → PVal
  | str : List Char → PVal
  | list : List PVal → PVal
  | dict : List (List Char × PVal) → PVal
deriving Repr

/-- Python `result[key] = v`: replace the value in place if the key is
present (keeping its position), otherwise append a new entry. -/
def dictSet (m : List (List Char × PVal)) (k : List Char) (v : PVal) :
    List (List Char × PVal) :=
  if m.any (fun p => p.1 = k) then
    m.map (fun p => if p.1 = k then (k, v) else p)
  else m ++ [(k, v)]

/-! ### The recursive-descent parser of `Metadata.decode_data`

The Python helpers mutate a shared token list via `data.pop(0)`;
we pass the remaining tokens explicitly and return them alongside the
result.  `none` models an uncaught exception (`IndexError` from popping
an empty list, `ValueError` from `int()`).  The mutually recursive
`parse_obj`/`parse_dict` pair and the `parse_array` loop take a fuel
parameter for termination; `decodeData` supplies fuel that is ample for
every terminating run (each loop iteration of the source consumes at
least one token). -/

/-- Python `str.strip()`: drop whitespace from both ends. -/
def pyStrip (l : List Char) : List Char :=
  ((l.dropWhile isSpaceChar).reverse.dropWhile isSpaceChar).reverse

/-- `parse_str`: accumulate tokens (space-separated) until the closing
quote token, then strip.  `acc` is the string built so far. -/
def parseStrGo (acc : List Char) (val : List Char) (data : List (List Char)) :
    Option (List Char × List (List Char)) :=
  if val = ['"'] then some (pyStrip acc, data)
  else
    match data with
    | [] => none
    | t :: rest => parseStrGo (acc ++ ' ' :: val) t rest

/-- `parse_val`: a quote token starts a string, anything else must be a
decimal integer. -/
def parseVal (val : List Char) (data : List (List Char)) :
    Option (PVal × List (List Char)) :=
  if val = ['"'] then
    match data with
    | [] => none
    | t :: rest => (parseStrGo [] t rest).map (fun p => (.str p.1, p.2))
  else (parseIntTok val).map (fun n => (.int n, data))

mutual

/-- `parse_obj`: pop one token and dispatch on it. -/
def parseObj (fuel : Nat) (data : List (List Char)) :
    Option (PVal × List (List Char)) :=
  match fuel with
  | 0 => none
  | fuel + 1 =>
    match data with
    | [] => none
    | val :: rest =>
      if val = ['{'] then
        match rest with
        | [] => none
        | v :: r => (parseDict fuel [] v r).map (fun p => (.dict p.1, p.2))
      else if val = ['['] then
        match rest with
        | [] => none
        | v :: r => (parseArray fuel v r).map (fun p => (.list p.1, p.2))
      else parseVal val rest

/-- `parse_array`: parse values until the closing bracket token. -/
def parseArray (fuel : Nat) (val : List Char) (data : List (List Char)) :
    Option (List PVal × List (List Char)) :=
  match fuel with
  | 0 => none
  | fuel + 1 =>
    if val = [']'] then some ([], data)
    else
      match parseVal val data with
      | none => none
      | some (v, d) =>
        match d with
        | [] => none
        | t :: r => (parseArray fuel t r).map (fun p => (v :: p.1, p.2))

/-- `parse_dict`: `val` is the current key token, `acc` the mapping
built so far.  Note the `if not data: return result` of the source:
token exhaustion after an entry returns the partial mapping rather than
failing — this is what terminates the brace-less top level. -/
def parseDict (fuel : Nat) (acc : List (List Char × PVal)) (val : List Char)
    (data : List (List Char)) :
    Option (List (List Char × PVal) × List (List Char)) :=
  match fuel with
  | 0 => none
  | fuel + 1 =>
    if val = ['}'] then some (acc, data)
    else
      match parseObj fuel data with
      | none => none
      | some (v, d) =>
        match d with
        | [] => some (dictSet acc val v, [])
        | t :: r => parseDict fuel (dictSet acc val v) t r

end

/-- `Metadata.decode_data`: tokenize, pop the volume-group name, and
parse the remaining tokens as the top-level mapping (whose first key is
the name itself).  Tokens left over after a top-level close brace are
discarded, as in the source. -/
def decodeData (raw : List Char) : Option (List Char × List (List Char × PVal)) :=
  let toks := tokenize raw
  match toks with
  | [] => none
  | name :: rest =>
    (parseDict (2 * toks.length + 2) [] name rest).map (fun p => (name, p.1))

/-! ### The encoder `Metadata.encode_data` -/

mutual

/-- `encode_val`. -/
def encodeVal : PVal → List Char
  | .int n => intToStr n
  | .str s => '"' :: s ++ ['"']
  | .list vs => '[' :: encodeList vs ++ [']']
  | .dict d => '{' :: '\n' :: encodeDict d ++ ['}', '\n']

/-- `", ".join` over encoded list elements. -/
def encodeList : List PVal → List Char
  | [] => []
  | [v] => encodeVal v
  | v :: vs => encodeVal v ++ ',' :: ' ' :: encodeList vs

/-- `encode_dict`: one `key = value` (or `key` + block) line per entry. -/
def encodeDict : List (List Char × PVal) → List Char
  | [] => []
  | (k, v) :: tl =>
    k ++ (match v with
          | .dict _ => [' ']
          | _ => [' ', '=', ' ']) ++ encodeVal v ++ '\n' :: encodeDict tl

end

/-- `Metadata.encode_data`: the encoded dictionary plus one trailing NUL. -/
def encodeData (d : List (List Char × PVal)) : List Char :=
  encodeDict d ++ ['\x00']

/-! ### Validity of decoded metadata

`decode_data` / `encode_data` round-trip exactly on the values the
format can represent.  The predicates below carve out that class:
keys are nonempty tokens with no structural or deleted characters and
are unique within each mapping; strings contain no structural, comment,
deleted or NUL characters and are single-space-separated words (the
tokenizer collapses whitespace runs and `parse_str` re-joins tokens
with single spaces, so other spacings cannot survive); sequences hold
only scalars (the array parser only produces scalars). -/

/-- Join tokens with single spaces (what `parse_str` reconstructs). -/
def unsplit : List (List Char) → List Char
  | [] => []
  | [w] => w
  | w :: ws => w ++ ' ' :: unsplit ws

/-- Characters admissible in a mapping key: no whitespace, and none of
the characters the tokenizer rewrites or deletes. -/
def okKeyChar (c : Char) : Bool :=
  !isSpaceChar c && c ≠ '[' && c ≠ ']' && c ≠ '"' && c ≠ '=' && c ≠ ',' &&
    c ≠ '#' && c ≠ '\x00'

def validKey (k : List Char) : Bool :=
  !(k.isEmpty) && k.all okKeyChar && k ≠ ['{'] && k ≠ ['}']

/-- Characters admissible in a string value: as for keys but single
spaces are allowed (and brackets are excluded since the tokenizer would
insert spaces around them). -/
def okStrChar (c : Char) : Bool :=
  (c = ' ' || !isSpaceChar c) && c ≠ '[' && c ≠ ']' && c ≠ '"' && c ≠ '=' &&
    c ≠ ',' && c ≠ '#' && c ≠ '\x00'

/-- A valid string value: admissible characters, and equal to the
single-space joining of its own whitespace split (no leading, trailing
or repeated spaces). -/
def validStr (s : List Char) : Bool :=
  s.all okStrChar && s == unsplit (splitTokens s)

/-- Sequence elements must be scalars: integers or valid strings. -/
def validScalar : PVal → Bool
  | .int _ => true
  | .str s => validStr s
  | _ => false

mutual

def validVal : PVal → Bool
  | .int _ => true
  | .str s => validStr s
  | .list vs => vs.all validScalar
  | .dict d => validDict d

def validDict : List (List Char × PVal) → Bool
  | [] => true
  | (k, v) :: tl =>
    validKey k && validVal v && tl.all (fun p => !(p.1 == k)) && validDict tl

end

/-! ### Token-level image of the encoder (proof device)

`tokensVal v` is the token sequence the tokenizer produces from
`encode_val v`; `tokensDict d` likewise for `encode_dict d` (and this is
also the top-level token sequence, which has no surrounding braces). -/

mutual

def tokensVal : PVal → List (List Char)
  | .int n => [intToStr n]
  | .str s => ['"'] :: splitTokens s ++ [['"']]
  | .list vs => ['['] :: tokensList vs ++ [[']']]
  | .dict d => ['{'] :: tokensDict d ++ [['}']]

def tokensList : List PVal → List (List Char)
  | [] => []
  | v :: vs => tokensVal v ++ tokensList vs

def tokensDict : List (List Char × PVal) → List (List Char)
  | [] => []
  | (k, v) :: tl => k :: tokensVal v ++ tokensDict tl

end

/-! ### Fuel cost of a successful parse (proof device) -/

mutual

def costVal : PVal → Nat
  | .int _ => 1
  | .str _ => 1
  | .list vs => costList vs + 1
  | .dict d => costDict d + 1

def costList : List PVal → Nat
  | [] => 1
  | _ :: vs => costList vs + 1

def costDict : List (List Char × PVal) → Nat
  | [] => 1
  | (_, v) :: tl => costVal v + costDict tl + 1

end

/-- The character-level substitutions 2–5 composed (those that are
homomorphic over concatenation). -/
def subPasses (l : List Char) : List Char :=
  delEqComma (subQuote (subCloseBr (subOpenBr l)))

/-- A character left untouched by substitutions 2–5. -/
def plainChar (c : Char) : Bool :=
  c ≠ '[' && c ≠ ']' && c ≠ '"' && c ≠ '=' && c ≠ ','

/-- Call `parse_dict` on a token list whose head is the next key
(`pop` plus call, as `parse_obj` and the top level do). -/
def parseDictAt (fuel : Nat) (acc : List (List Char × PVal))
    (data : List (List Char)) :
    Option (List (List Char × PVal) × List (List Char)) :=
  match data with
  | [] => none
  | v :: r => parseDict fuel acc v r

/-- Call `parse_array` on a token list whose head is the next value
token. -/
def parseArrayAt (fuel : Nat) (data : List (List Char)) :
    Option (List PVal × List (List Char)) :=
  match data with
  | [] => none
  | v :: r => parseArray fuel v r

/-! ### The LVM checksum `_calc_crc`

A nibble-wise CRC-32 variant with a nonstandard seed. -/

def INITIAL_CRC : Nat := 0xf597a6cf

def crctab : List Nat :=
  [0x00000000, 0x1db71064, 0x3b6e20c8, 0x26d930ac,
   0x76dc4190, 0x6b6b51f4, 0x4db26158, 0x5005713c,
   0xedb88320, 0xf00f9344, 0xd6d6a3e8, 0xcb61b38c,
   0x9b64c2b0, 0x86d3d2d4, 0xa00ae278, 0xbdbdf21c]

/-- One byte step: xor the byte in, then two nibble table rounds. -/
def crcStep (crc b : Nat) : Nat :=
  let c1 := crc ^^^ b
  let c2 := (c1 / 16) ^^^ crctab.getD (c1 % 16) 0
  (c2 / 16) ^^^ crctab.getD (c2 % 16) 0

def calcCrcFrom (crc : Nat) : List Nat → Nat
  | [] => crc
  | b :: rest => calcCrcFrom (crcStep crc b) rest

/-- `_calc_crc(buf)` with the default seed. -/
def calcCrc (buf : List Nat) : Nat := calcCrcFrom INITIAL_CRC buf

/-! ### Little-endian integer fields (`struct` format codes `L` and `Q`)

`struct.pack` raises on out-of-range values, so the encoders below are
used under the hypothesis that the value fits its width; decoding takes
the low byte of each element. -/

/-- `k` bytes, little-endian, of `n`. -/
def encodeLE : Nat → Nat → List Nat
  | _, 0 => []
  | n, k + 1 => n % 256 :: encodeLE (n / 256) k

/-- Little-endian value of a byte list. -/
def decodeLE (l : List Nat) : Nat :=
  l.foldr (fun b acc => b % 256 + 256 * acc) 0

/-! ### UTF-8 (`bytes.decode` / `str.encode`) -/

def utf8EncodeChar (c : Char) : List Nat :=
  let n := c.toNat
  if n < 0x80 then [n]
  else if n < 0x800 then [0xc0 + n / 64, 0x80 + n % 64]
  else if n < 0x10000 then
    [0xe0 + n / 4096, 0x80 + n / 64 % 64, 0x80 + n % 64]
  else
    [0xf0 + n / 0x40000, 0x80 + n / 4096 % 64, 0x80 + n / 64 % 64, 0x80 + n % 64]

def utf8Encode (s : List Char) : List Nat :=
  (s.map utf8EncodeChar).flatten

def isCont (b : Nat) : Bool := 0x80 ≤ b && b < 0xc0

/-- Strict UTF-8 decoding, rejecting truncated sequences, overlong
encodings, surrogates and out-of-range code points, as Python's
`bytes.decode("utf-8")` does. -/
def utf8Decode : List Nat → Option (List Char)
  | [] => some []
  | b :: rest =>
    if b < 0x80 then (utf8Decode rest).map (fun s => Char.ofNat b :: s)
    else if b < 0xc2 then none
    else if b < 0xe0 then
      match rest with
      | b1 :: r =>
        if isCont b1 then
          (utf8Decode r).map (fun s => Char.ofNat ((b - 0xc0) * 64 + (b1 - 0x80)) :: s)
        else none
      | _ => none
    else if b < 0xf0 then
      match rest with
      | b1 :: b2 :: r =>
        let n := (b - 0xe0) * 4096 + (b1 - 0x80) * 64 + (b2 - 0x80)
        if isCont b1 && isCont b2 && 0x800 ≤ n && (n < 0xd800 || 0xe000 ≤ n) then
          (utf8Decode r).map (fun s => Char.ofNat n :: s)
        else none
      | _ => none
    else if b < 0xf5 then
      match rest with
      | b1 :: b2 :: b3 :: r =>
        let n := (b - 0xf0) * 0x40000 + (b1 - 0x80) * 4096 + (b2 - 0x80) * 64 + (b3 - 0x80)
        if isCont b1 && isCont b2 && isCont b3 && 0x10000 ≤ n && n < 0x110000 then
          (utf8Decode r).map (fun s => Char.ofNat n :: s)
        else none
      | _ => none
    else none

/-! ### Byte streams

A device or image is a `List Nat` of bytes.  `readBytes s off n` models
seek-then-read (a read past the end is short or empty); `writeBytes`
models seek-then-write (writing past the end zero-fills the gap, and an
overwrite splices in place). -/

def readBytes (s : List Nat) (off n : Nat) : List Nat :=
  (s.drop off).take n

def writeBytes (s : List Nat) (off : Nat) (d : List Nat) : List Nat :=
  s.take off ++ List.replicate (off - s.length) 0 ++ d ++ s.drop (off + d.length)

/-- Position after `read(n)` at position `p` in a file of length `len`:
a read past the end returns nothing and does not move. -/
def advancePos (len p n : Nat) : Nat :=
  if len ≤ p then p else min (p + n) len

/-- Python exceptions and error returns surfaced by the module. -/
inductive PyErr where
  /-- `IndexError`: `pop` from an empty list / subscript out of range. -/
  | indexError
  /-- `TypeError`: subscripting a `None` record. -/
  | typeError
  /-- `UnicodeDecodeError` from `bytes.decode("utf-8")`. -/
  | encodingError
  /-- `IndexError`/`ValueError` escaping from `Metadata.decode_data`. -/
  | grammarError
  /-- `RuntimeError("Could not find label header")` from `Disk.open`. -/
  | labelNotFound
  /-- `struct.error`: unpacking from a buffer shorter than the format. -/
  | structError
deriving Repr, DecidableEq

/-! ### `LabelHeader` -/

/-- The bytes of the ASCII marker `LABELONE`. -/
def labelIdBytes : List Nat := [0x4c, 0x41, 0x42, 0x45, 0x4c, 0x4f, 0x4e, 0x45]

structure LabelHeaderData where
  id : List Nat
  sector : Nat
  crc : Nat
  offset : Nat
  type : List Nat
deriving Repr, DecidableEq

/-- `CStruct.unpack` for the label schema `id:8s sector:Q crc:L offset:L
type:8s` (`unpack_from` ignores bytes beyond the 32-byte record). -/
def labelUnpack (raw : List Nat) : LabelHeaderData where
  id := raw.take 8
  sector := decodeLE ((raw.drop 8).take 8)
  crc := decodeLE ((raw.drop 16).take 4)
  offset := decodeLE ((raw.drop 20).take 4)
  type := (raw.drop 24).take 8

/-- The scan loop of `LabelHeader.search` with `i` sectors left to scan:
read one sector, compare the first 8 bytes against the marker, decode on
a match (`struct.error` if the matching read is shorter than the
32-byte record), otherwise continue at the advanced file position. -/
def labelScanGo : Nat → List Nat → Nat → Except PyErr (Option LabelHeaderData)
  | 0, _, _ => .ok none
  | i + 1, bytes, pos =>
    let raw := readBytes bytes pos 512
    if raw.take 8 = labelIdBytes then
      if raw.length < 32 then .error .structError
      else .ok (some (labelUnpack raw))
    else labelScanGo i bytes (pos + raw.length)

/-- `LabelHeader.search(fp)`: seek to 0 and scan sectors 0..3;
`.ok none` is the source's `return None`. -/
def labelSearch (bytes : List Nat) : Except PyErr (Option LabelHeaderData) :=
  labelScanGo 4 bytes 0

/-- Proof device: the scan loop with the position advanced by a full
sector regardless of how many bytes the read returned.  Equivalent to
`labelScanGo` (a short read only happens at end of file, where every
later read returns nothing under either position). -/
def labelScanAligned : Nat → List Nat → Nat → Except PyErr (Option LabelHeaderData)
  | 0, _, _ => .ok none
  | i + 1, bytes, pos =>
    let raw := readBytes bytes pos 512
    if raw.take 8 = labelIdBytes then
      if raw.length < 32 then .error .structError
      else .ok (some (labelUnpack raw))
    else labelScanAligned i bytes (pos + 512)

/-! ### `DiskLocN` and `RawLocN` sentinel-terminated arrays -/

structure DiskLocn where
  offset : Nat
  size : Nat
deriving Repr, DecidableEq

def diskLocnDecode (d : List Nat) : DiskLocn where
  offset := decodeLE (d.take 8)
  size := decodeLE ((d.drop 8).take 8)

def diskLocnEncode (r : DiskLocn) : List Nat :=
  encodeLE r.offset 8 ++ encodeLE r.size 8

structure RawLocn where
  offset : Nat
  size : Nat
  checksum : Nat
  flags : Nat
deriving Repr, DecidableEq

def rawLocnDecode (d : List Nat) : RawLocn where
  offset := decodeLE (d.take 8)
  size := decodeLE ((d.drop 8).take 8)
  checksum := decodeLE ((d.drop 16).take 4)
  flags := decodeLE ((d.drop 20).take 4)

def rawLocnEncode (l : RawLocn) : List Nat :=
  encodeLE l.offset 8 ++ encodeLE l.size 8 ++ encodeLE l.checksum 4 ++ encodeLE l.flags 4

/-- `DiskLocN.read_array`: repeatedly read one 16-byte record; stop on a
short read or on a record whose offset field is 0 (the sentinel).
Returns the entries together with the final file position.  The fuel
only serves structural termination; `bytes.length + 1` is ample since
every iteration consumes 16 bytes. -/
def diskLocnReadArrayGo : Nat → List Nat → Nat → List DiskLocn × Nat
  | 0, _, pos => ([], pos)
  | f + 1, bytes, pos =>
    let data := readBytes bytes pos 16
    if data.length < 16 then ([], advancePos bytes.length pos 16)
    else
      let r := diskLocnDecode data
      if r.offset = 0 then ([], pos + 16)
      else
        let p := diskLocnReadArrayGo f bytes (pos + 16)
        (r :: p.1, p.2)

def diskLocnReadArray (bytes : List Nat) (pos : Nat) : List DiskLocn × Nat :=
  diskLocnReadArrayGo (bytes.length + 1) bytes pos

/-- `RawLocN.read_array`: the same protocol over 24-byte records. -/
def rawLocnReadArrayGo : Nat → List Nat → Nat → List RawLocn × Nat
  | 0, _, pos => ([], pos)
  | f + 1, bytes, pos =>
    let data := readBytes bytes pos 24
    if data.length < 24 then ([], advancePos bytes.length pos 24)
    else
      let r := rawLocnDecode data
      if r.offset = 0 then ([], pos + 24)
      else
        let p := rawLocnReadArrayGo f bytes (pos + 24)
        (r :: p.1, p.2)

def rawLocnReadArray (bytes : List Nat) (pos : Nat) : List RawLocn × Nat :=
  rawLocnReadArrayGo (bytes.length + 1) bytes pos

/-! ### `PVHeader` -/

structure PVFields where
  uuid : List Nat
  disk_size : Nat
deriving Repr, DecidableEq

structure PVHeaderObj where
  /-- `none` models `CStruct.read` returning `None` on a short read;
  the source stores it without complaint and only fails later when the
  record is subscripted. -/
  data : Option PVFields
  data_areas : List DiskLocn
  meta_areas : List DiskLocn
deriving Repr, DecidableEq

/-- `PVHeader.read(fp)` at position `pos`: the fixed `uuid:32s
disk_size:Q` record, then the two back-to-back sentinel-terminated
DiskLocN arrays (data areas, then metadata areas). -/
def pvRead (bytes : List Nat) (pos : Nat) : PVHeaderObj :=
  let data := readBytes bytes pos 40
  let fields : Option PVFields :=
    if data.length < 40 then none
    else some ⟨data.take 32, decodeLE ((data.drop 32).take 8)⟩
  let pos1 := advancePos bytes.length pos 40
  let da := diskLocnReadArray bytes pos1
  let ma := diskLocnReadArray bytes da.2
  ⟨fields, da.1, ma.1⟩

/-! ### `MDAHeader` -/

def MDA_HEADER_SIZE : Nat := 512

structure MDAHeaderData where
  checksum : Nat
  magic : List Nat
  version : Nat
  start : Nat
  size : Nat
deriving Repr, DecidableEq

structure MDAHeaderObj where
  data : Option MDAHeaderData
  raw_locns : List RawLocn
deriving Repr, DecidableEq

/-- `MDAHeader.read(fp)` from the start of a metadata area's bytes:
the fixed `checksum:L magic:16s version:L start:Q size:Q` record, then
the sentinel-terminated RawLocN array. -/
def mdaRead (area : List Nat) : MDAHeaderObj :=
  let data := readBytes area 0 40
  let fields : Option MDAHeaderData :=
    if data.length < 40 then none
    else some ⟨decodeLE (data.take 4), (data.drop 4).take 16,
      decodeLE ((data.drop 20).take 4), decodeLE ((data.drop 24).take 8),
      decodeLE ((data.drop 32).take 8)⟩
  let pos1 := advancePos area.length 0 40
  ⟨fields, (rawLocnReadArray area pos1).1⟩

/-- `struct.pack` of a 16-byte `s` field: truncate or NUL-pad. -/
def packBytes16 (m : List Nat) : List Nat :=
  (m.take 16).map (fun b => b % 256) ++ List.replicate (16 - m.length) 0

/-- `CStruct.pack` for the MDA header schema. -/
def mdaHeaderPack (h : MDAHeaderData) : List Nat :=
  encodeLE h.checksum 4 ++ packBytes16 h.magic ++ encodeLE h.version 4 ++
    encodeLE h.start 8 ++ encodeLE h.size 8

/-- The 512-byte staging buffer of `MDAHeader.write`: header record,
location records, zero padding to 512 bytes; then the checksum over
everything but the first 4 bytes is computed, patched into the header
fields, and the header record alone is re-serialized over the first
bytes of the buffer. -/
def mdaWriteBuffer (h : MDAHeaderData) (locs : List RawLocn) : List Nat :=
  let body := mdaHeaderPack h ++ (locs.map rawLocnEncode).flatten
  let raw := body ++ List.replicate (MDA_HEADER_SIZE - body.length) 0
  let cs := calcCrc (raw.drop 4)
  mdaHeaderPack { h with checksum := cs } ++ raw.drop 40

/-- The checksum stored by `MDAHeader.write`. -/
def mdaWriteChecksum (h : MDAHeaderData) (locs : List RawLocn) : Nat :=
  let body := mdaHeaderPack h ++ (locs.map rawLocnEncode).flatten
  calcCrc ((body ++ List.replicate (MDA_HEADER_SIZE - body.length) 0).drop 4)

/-- `MDAHeader.write(fp)`: write the staging buffer at `header.start`. -/
def mdaWrite (bytes : List Nat) (h : MDAHeaderData) (locs : List RawLocn) : List Nat :=
  writeBytes bytes h.start (mdaWriteBuffer h locs)

/-! ### `Metadata` decode/encode over byte blobs -/

structure Metadata where
  vg_name : List Char
  data : List (List Char × PVal)
deriving Repr

/-- `Metadata.decode(bytes)`: UTF-8 decode, then `decode_data`. -/
def metadataDecode (raw : List Nat) : Except PyErr Metadata :=
  match utf8Decode raw with
  | none => .error .encodingError
  | some s =>
    match decodeData s with
    | none => .error .grammarError
    | some p => .ok ⟨p.1, p.2⟩

/-- `Metadata.encode()`. -/
def metadataEncode (md : Metadata) : List Nat :=
  utf8Encode (encodeData md.data)

/-- `MDAHeader.read_metadata(fp)`: take the committed entry (index 0,
`IndexError` when the array is empty), seek to `start + entry.offset`
(`TypeError` when the header record was absent), read `entry.size`
bytes — with no check that this many bytes were available — and decode
them. -/
def mdaReadMetadata (bytes : List Nat) (hdr : MDAHeaderObj) : Except PyErr Metadata :=
  match hdr.raw_locns with
  | [] => .error .indexError
  | loc :: _ =>
    match hdr.data with
    | none => .error .typeError
    | some h => metadataDecode (readBytes bytes (h.start + loc.offset) loc.size)

/-- `MDAHeader.write_metadata(fp, data)`: encode, write the blob at
`start + entry.offset`, update the committed entry's size and checksum,
then rewrite the header region.  Returns the new stream and the updated
header object. -/
def mdaWriteMetadata (bytes : List Nat) (hdr : MDAHeaderObj) (md : Metadata) :
    Except PyErr (List Nat × MDAHeaderObj) :=
  let raw := metadataEncode md
  match hdr.raw_locns with
  | [] => .error .indexError
  | loc :: tl =>
    match hdr.data with
    | none => .error .typeError
    | some h =>
      let s1 := writeBytes bytes (h.start + loc.offset) raw
      let loc' := { loc with size := raw.length, checksum := calcCrc raw }
      let locs' := loc' :: tl
      .ok (mdaWrite s1 h locs',
        ⟨some { h with checksum := mdaWriteChecksum h locs' }, locs'⟩)

/-! ### `Disk`: open, dump, the read-modify-write loop, and the session -/

structure DiskObj where
  lbl : LabelHeaderData
  pv : PVHeaderObj
deriving Repr, DecidableEq

/-- `Disk.open(path)`: open the handle, search for the label (the
`RuntimeError` on a missing label — and any `struct.error` from the
scan — propagates **without closing the handle**), then follow
`sector * 512 + offset` to the PV header. -/
def diskOpen (bytes : List Nat) : Except PyErr DiskObj :=
  match labelSearch bytes with
  | .error e => .error e
  | .ok none => .error .labelNotFound
  | .ok (some lbl) => .ok ⟨lbl, pvRead bytes (lbl.sector * 512 + lbl.offset)⟩

/-- `Disk.dump()`: printing the PV header subscripts its record fields,
a `TypeError` when the fixed record was missing (`None`). -/
def diskDump (d : DiskObj) : Except PyErr Unit :=
  if d.pv.data.isNone then .error .typeError else .ok ()

/-- The loop body of `Disk.read_metadata`: for each metadata area, read
its bytes, parse the MDA header from them, read the committed metadata
from the device, and write it straight back.  Any exception aborts the
loop and propagates. -/
def reconcileAreas (bytes : List Nat) : List DiskLocn → Except PyErr (List Nat)
  | [] => .ok bytes
  | ma :: rest =>
    let area := readBytes bytes ma.offset ma.size
    let hdr := mdaRead area
    match mdaReadMetadata bytes hdr with
    | .error e => .error e
    | .ok md =>
      match mdaWriteMetadata bytes hdr md with
      | .error e => .error e
      | .ok p => reconcileAreas p.1 rest

/-- `main()`: `with Disk.open(path) as disk: disk.dump();
disk.read_metadata()`.  The result pairs the outcome with the number of
times the device handle is closed: `Disk.__exit__` closes exactly once
(and sets `fp = None`) whenever the `with` body was entered, even if
the body raised; but when `Disk.open` itself raises, no `Disk` exists
and the freshly opened handle is never closed. -/
def session (bytes : List Nat) : Except PyErr Unit × Nat :=
  match diskOpen bytes with
  | .error e => (.error e, 0)
  | .ok disk =>
    let body : Except PyErr Unit :=
      match diskDump disk with
      | .error e => .error e
      | .ok _ => (reconcileAreas bytes disk.pv.meta_areas).map (fun _ => ())
    (body, 1)

/-- Whether an `Except` computation succeeded (used to state which
session paths entered the `with` body). -/
def exceptOk {ε α : Type} : Except ε α → Bool
  | .ok _ => true
  | .error _ => false

/-! ### `CStruct.__getitem__` -/

structure CField where
  name : String
  ctype : String
  pos : Nat
deriving Repr, DecidableEq

/-- The comparison `f.name == f` from `CStruct.__getitem__`: a Python
`str` compared with a `Field` instance.  Neither type implements a
cross-type `__eq__`, so the interpreter falls back to identity, and a
string is never the same object as a `Field`: the result is always
`False`. -/
def strEqField (_s : String) (_f : CField) : Bool := false

/-- `CStruct.__getitem__(name)`: scan the fields, returning the first
one for which `f.name == f`; `none` models the `KeyError` raised after
the scan.  Note the requested `name` is never consulted. -/
def cstructGetItem (fields : List CField) (_name : String) : Option CField :=
  fields.find? (fun f => strEqField f.name f)

/-! ## Helper lemmas -/

theorem encodeLE_length (n k : Nat) : (encodeLE n k).length = k := by
  induction k generalizing n with
  | zero => rfl
  | succ k ih => simp [encodeLE, ih]

theorem decodeLE_encodeLE (n k : Nat) : decodeLE (encodeLE n k) = n % 256 ^ k := by
  induction k generalizing n with
  | zero => simp [encodeLE, decodeLE, Nat.mod_one]
  | succ k ih =>
    have h1 := ih (n / 256)
    simp only [encodeLE, decodeLE, List.foldr_cons] at *
    rw [h1]
    have h256 : (256 : Nat) ^ (k + 1) = 256 * 256 ^ k := by ring
    rw [h256, Nat.mod_mul]
    generalize n / 256 % 256 ^ k = m
    omega

theorem readBytes_append_left (a b : List Nat) (n : Nat) :
    readBytes (a ++ b) a.length n = b.take n := by
  simp [readBytes, List.drop_left]

theorem readBytes_length (s : List Nat) (off n : Nat) :
    (readBytes s off n).length = min n (s.length - off) := by
  simp [readBytes]

theorem writeBytes_split (s : List Nat) (off : Nat) (d : List Nat) :
    writeBytes s off d =
      (s.take off ++ List.replicate (off - s.length) 0) ++ (d ++ s.drop (off + d.length)) := by
  simp [writeBytes]

theorem writeBytes_headLen (s : List Nat) (off : Nat) :
    (s.take off ++ List.replicate (off - s.length) 0).length = off := by
  simp only [List.length_append, List.length_take, List.length_replicate]
  omega

theorem readBytes_writeBytes (s : List Nat) (off : Nat) (d : List Nat) :
    readBytes (writeBytes s off d) off d.length = d := by
  rw [readBytes, writeBytes_split, List.drop_left' (writeBytes_headLen s off),
    List.take_left' rfl]

theorem drop_writeBytes_of_le (s : List Nat) (off : Nat) (d : List Nat) (p : Nat)
    (hle : off + d.length ≤ p) :
    (writeBytes s off d).drop p = s.drop p := by
  have hA := writeBytes_headLen s off
  rw [writeBytes_split, List.drop_append_eq_append_drop, hA,
    List.drop_eq_nil_of_le (by rw [hA]; omega), List.nil_append,
    List.drop_append_eq_append_drop,
    List.drop_eq_nil_of_le (le_trans le_rfl (by omega)), List.nil_append,
    List.drop_drop]
  congr 1
  omega

theorem readBytes_writeBytes_of_le (s : List Nat) (off : Nat) (d : List Nat) (p n : Nat)
    (hle : off + d.length ≤ p) :
    readBytes (writeBytes s off d) p n = readBytes s p n := by
  rw [readBytes, readBytes, drop_writeBytes_of_le s off d p hle]

/-! ### Range of the checksum -/

theorem crctab_getD_lt (n : Nat) : crctab.getD n 0 < 2 ^ 32 := by
  rcases Nat.lt_or_ge n 16 with h | h
  · interval_cases n <;> decide
  · rw [List.getD_eq_default]
    · norm_num
    · simpa [crctab] using h

theorem crcStep_lt (crc b : Nat) (hc : crc < 2 ^ 32) (hb : b < 256) :
    crcStep crc b < 2 ^ 32 := by
  have h1 : crc ^^^ b < 2 ^ 32 :=
    Nat.xor_lt_two_pow hc (lt_trans hb (by norm_num))
  have h2 : (crc ^^^ b) / 16 < 2 ^ 32 := lt_of_le_of_lt (Nat.div_le_self _ _) h1
  have h3 : (crc ^^^ b) / 16 ^^^ crctab.getD ((crc ^^^ b) % 16) 0 < 2 ^ 32 :=
    Nat.xor_lt_two_pow h2 (crctab_getD_lt _)
  have h4 := lt_of_le_of_lt (Nat.div_le_self ((crc ^^^ b) / 16 ^^^ crctab.getD ((crc ^^^ b) % 16) 0) 16) h3
  exact Nat.xor_lt_two_pow h4 (crctab_getD_lt _)

theorem calcCrcFrom_lt (l : List Nat) (crc : Nat) (hc : crc < 2 ^ 32)
    (hl : ∀ b ∈ l, b < 256) : calcCrcFrom crc l < 2 ^ 32 := by
  induction l generalizing crc with
  | nil => exact hc
  | cons b rest ih =>
    exact ih (crcStep crc b) (crcStep_lt crc b hc (hl b (by simp)))
      (fun x hx => hl x (by simp [hx]))

theorem calcCrc_lt (l : List Nat) (hl : ∀ b ∈ l, b < 256) : calcCrc l < 2 ^ 32 :=
  calcCrcFrom_lt l INITIAL_CRC (by norm_num [INITIAL_CRC]) hl

/-! ### Bytes produced by the packers are genuine bytes -/

theorem encodeLE_mem_lt (n k : Nat) : ∀ b ∈ encodeLE n k, b < 256 := by
  induction k generalizing n with
  | zero => simp [encodeLE]
  | succ k ih =>
    intro b hb
    simp only [encodeLE, List.mem_cons] at hb
    rcases hb with h | h
    · omega
    · exact ih (n / 256) b h

theorem packBytes16_mem_lt (m : List Nat) : ∀ b ∈ packBytes16 m, b < 256 := by
  intro b hb
  simp only [packBytes16, List.mem_append, List.mem_map, List.mem_replicate] at hb
  rcases hb with ⟨x, _, hx⟩ | ⟨_, h⟩
  · omega
  · omega

theorem mdaHeaderPack_mem_lt (h : MDAHeaderData) : ∀ b ∈ mdaHeaderPack h, b < 256 := by
  intro b hb
  simp only [mdaHeaderPack, List.mem_append] at hb
  rcases hb with (((h1 | h2) | h3) | h4) | h5
  · exact encodeLE_mem_lt _ _ b h1
  · exact packBytes16_mem_lt _ b h2
  · exact encodeLE_mem_lt _ _ b h3
  · exact encodeLE_mem_lt _ _ b h4
  · exact encodeLE_mem_lt _ _ b h5

theorem rawLocnEncode_mem_lt (l : RawLocn) : ∀ b ∈ rawLocnEncode l, b < 256 := by
  intro b hb
  simp only [rawLocnEncode, List.mem_append] at hb
  rcases hb with ((h1 | h2) | h3) | h4 <;> exact encodeLE_mem_lt _ _ b (by assumption)

/-! ### Shape of the MDA header pack -/

theorem mdaHeaderPack_eq (h : MDAHeaderData) :
    mdaHeaderPack h = encodeLE h.checksum 4 ++ (packBytes16 h.magic ++
      (encodeLE h.version 4 ++ (encodeLE h.start 8 ++ encodeLE h.size 8))) := by
  simp [mdaHeaderPack, List.append_assoc]

theorem mdaHeaderPack_drop4 (h : MDAHeaderData) :
    (mdaHeaderPack h).drop 4 = packBytes16 h.magic ++
      (encodeLE h.version 4 ++ (encodeLE h.start 8 ++ encodeLE h.size 8)) := by
  rw [mdaHeaderPack_eq, List.drop_left' (encodeLE_length _ 4)]

theorem packBytes16_length (m : List Nat) : (packBytes16 m).length = 16 := by
  simp only [packBytes16, List.length_append, List.length_map, List.length_take,
    List.length_replicate]
  omega

theorem mdaHeaderPack_length (h : MDAHeaderData) : (mdaHeaderPack h).length = 40 := by
  simp [mdaHeaderPack, encodeLE_length, packBytes16_length]

theorem rawLocnEncode_length (l : RawLocn) : (rawLocnEncode l).length = 24 := by
  simp [rawLocnEncode, encodeLE_length]

theorem rawLocnFlatten_length (locs : List RawLocn) :
    ((locs.map rawLocnEncode).flatten).length = 24 * locs.length := by
  induction locs with
  | nil => simp
  | cons l tl ih => simp [ih, rawLocnEncode_length]; ring

theorem diskLocnEncode_length (r : DiskLocn) : (diskLocnEncode r).length = 16 := by
  simp [diskLocnEncode, encodeLE_length]

theorem diskLocnFlatten_length (recs : List DiskLocn) :
    ((recs.map diskLocnEncode).flatten).length = 16 * recs.length := by
  induction recs with
  | nil => simp
  | cons l tl ih => simp [ih, diskLocnEncode_length]; ring

/-! ## Claim C9: `CStruct.__getitem__` -/

/-- C9 counterexample.  The claim says named-field lookup on a schema
with at least one field always succeeds; on a one-field schema, looking
up that very field's name raises `KeyError` (`none`). -/
theorem c9_counterexample :
    cstructGetItem [⟨"offset", "Q", 0⟩] "offset" = none := by rfl

/-- C9 (amended): because `CStruct.__getitem__` compares a field's name
with the field object itself (`f.name == f`, always `False` in Python),
the lookup never returns a field: it raises `KeyError` for every schema
and every requested name, regardless of which fields exist. -/
theorem c9_getitem_always_keyerror (fields : List CField) (name : String) :
    cstructGetItem fields name = none := by
  induction fields with
  | nil => rfl
  | cons f tl ih => simp [cstructGetItem, List.find?, strEqField, ih]

/-! ## Claim C5: sentinel-terminated arrays -/

theorem decodeLE_replicate_zero (k : Nat) : decodeLE (List.replicate k 0) = 0 := by
  induction k with
  | zero => rfl
  | succ k ih => simp [decodeLE, List.replicate_succ, List.foldr_cons] at *; simp [ih]

theorem diskLocnDecode_encode (r : DiskLocn) (ho : r.offset < 2 ^ 64)
    (hs : r.size < 2 ^ 64) : diskLocnDecode (diskLocnEncode r) = r := by
  have h64 : (256 : Nat) ^ 8 = 2 ^ 64 := by norm_num
  cases r with
  | mk o s =>
    simp only [diskLocnDecode, diskLocnEncode, DiskLocn.mk.injEq]
    constructor
    · rw [List.take_left' (encodeLE_length _ 8), decodeLE_encodeLE, h64]
      exact Nat.mod_eq_of_lt ho
    · rw [List.drop_left' (encodeLE_length _ 8),
        List.take_of_length_le (le_of_eq (encodeLE_length _ 8)),
        decodeLE_encodeLE, h64]
      exact Nat.mod_eq_of_lt hs

theorem rawLocnDecode_encode (l : RawLocn) (ho : l.offset < 2 ^ 64)
    (hs : l.size < 2 ^ 64) (hc : l.checksum < 2 ^ 32) (hf : l.flags < 2 ^ 32) :
    rawLocnDecode (rawLocnEncode l) = l := by
  have h64 : (256 : Nat) ^ 8 = 2 ^ 64 := by norm_num
  have h32 : (256 : Nat) ^ 4 = 2 ^ 32 := by norm_num
  have e8 : (encodeLE l.offset 8 ++ (encodeLE l.size 8 ++
      (encodeLE l.checksum 4 ++ encodeLE l.flags 4))).drop 8 =
      encodeLE l.size 8 ++ (encodeLE l.checksum 4 ++ encodeLE l.flags 4) :=
    List.drop_left' (encodeLE_length _ 8)
  cases l with
  | mk o s c fl =>
    simp only [rawLocnDecode, rawLocnEncode, RawLocn.mk.injEq, List.append_assoc]
    refine ⟨?_, ?_, ?_, ?_⟩
    · rw [List.take_left' (encodeLE_length _ 8), decodeLE_encodeLE, h64]
      exact Nat.mod_eq_of_lt ho
    · rw [e8, List.take_left' (encodeLE_length _ 8), decodeLE_encodeLE, h64]
      exact Nat.mod_eq_of_lt hs
    · rw [show (16 : Nat) = 8 + 8 from rfl, ← List.drop_drop, e8,
        List.drop_left' (encodeLE_length _ 8),
        List.take_left' (encodeLE_length _ 4), decodeLE_encodeLE, h32]
      exact Nat.mod_eq_of_lt hc
    · rw [show (20 : Nat) = 8 + 12 from rfl, ← List.drop_drop, e8,
        show (12 : Nat) = 8 + 4 from rfl, ← List.drop_drop,
        List.drop_left' (encodeLE_length _ 8),
        List.drop_left' (encodeLE_length _ 4),
        List.take_of_length_le (le_of_eq (encodeLE_length _ 4)),
        decodeLE_encodeLE, h32]
      exact Nat.mod_eq_of_lt hf

/-! ## Label scanning: C4 and C10 -/

theorem labelScanGo_past (i : Nat) (bytes : List Nat) (pos : Nat)
    (h : bytes.length ≤ pos) : labelScanGo i bytes pos = .ok none := by
  induction i generalizing pos with
  | zero => rfl
  | succ i ih =>
    have hraw : readBytes bytes pos 512 = [] := by
      rw [readBytes, List.drop_eq_nil_of_le h, List.take_nil]
    simp only [labelScanGo, hraw]
    rw [if_neg (by simp [labelIdBytes])]
    simpa using ih pos h

theorem labelScanAligned_past (i : Nat) (bytes : List Nat) (pos : Nat)
    (h : bytes.length ≤ pos) : labelScanAligned i bytes pos = .ok none := by
  induction i generalizing pos with
  | zero => rfl
  | succ i ih =>
    have hraw : readBytes bytes pos 512 = [] := by
      rw [readBytes, List.drop_eq_nil_of_le h, List.take_nil]
    simp only [labelScanAligned, hraw]
    rw [if_neg (by simp [labelIdBytes])]
    exact ih (pos + 512) (by omega)

theorem labelScanGo_eq_aligned (i : Nat) (bytes : List Nat) (pos : Nat)
    (h : pos ≤ bytes.length) :
    labelScanGo i bytes pos = labelScanAligned i bytes pos := by
  induction i generalizing pos with
  | zero => rfl
  | succ i ih =>
    simp only [labelScanGo, labelScanAligned]
    by_cases hm : (readBytes bytes pos 512).take 8 = labelIdBytes
    · simp [hm]
    · rw [if_neg hm, if_neg hm]
      by_cases hfull : pos + 512 ≤ bytes.length
      · have hlen : (readBytes bytes pos 512).length = 512 := by
          rw [readBytes_length]; omega
        rw [hlen]
        exact ih (pos + 512) hfull
      · have hlen : (readBytes bytes pos 512).length = bytes.length - pos := by
          rw [readBytes_length]; omega
        rw [hlen, show pos + (bytes.length - pos) = bytes.length by omega,
          labelScanGo_past i bytes bytes.length le_rfl,
          labelScanAligned_past i bytes (pos + 512) (by omega)]

theorem aligned_step_match (i : Nat) (bytes : List Nat) (pos : Nat)
    (hm : (readBytes bytes pos 512).take 8 = labelIdBytes)
    (h32 : ¬ (readBytes bytes pos 512).length < 32) :
    labelScanAligned (i + 1) bytes pos =
      .ok (some (labelUnpack (readBytes bytes pos 512))) := by
  simp [labelScanAligned, hm, h32]

theorem aligned_step_skip (i : Nat) (bytes : List Nat) (pos : Nat)
    (hm : (readBytes bytes pos 512).take 8 ≠ labelIdBytes) :
    labelScanAligned (i + 1) bytes pos = labelScanAligned i bytes (pos + 512) := by
  simp [labelScanAligned, hm]

/-- Shared with C4: scanning a device with no marker in sectors 0..3
returns `None` without raising. -/
theorem labelSearch_none (bytes : List Nat)
    (h : ∀ j, j < 4 → (readBytes bytes (512 * j) 512).take 8 ≠ labelIdBytes) :
    labelSearch bytes = .ok none := by
  rw [labelSearch, labelScanGo_eq_aligned 4 bytes 0 (Nat.zero_le _),
    aligned_step_skip 3 bytes 0 (by simpa using h 0 (by omega)),
    aligned_step_skip 2 bytes (0 + 512) (by simpa using h 1 (by omega)),
    aligned_step_skip 1 bytes (0 + 512 + 512) (by simpa using h 2 (by omega)),
    aligned_step_skip 0 bytes (0 + 512 + 512 + 512) (by simpa using h 3 (by omega))]
  rfl

/-- C4: the label search scans sector indices 0..3.  If the `LABELONE`
marker first appears at sector `k` (with the sector readable to at
least the 32-byte record), `search` returns the label decoded from
sector `k`; on a device with no marker in sectors 0..3, `Disk.open`
fails with the label-not-found error. -/
theorem c4_label_scan (b1 b2 : List Nat) (k : Nat) (hk : k < 4)
    (hmatch : (readBytes b1 (512 * k) 512).take 8 = labelIdBytes)
    (hbefore : ∀ j, j < k → (readBytes b1 (512 * j) 512).take 8 ≠ labelIdBytes)
    (hlen : 512 * k + 32 ≤ b1.length)
    (hnomatch : ∀ j, j < 4 → (readBytes b2 (512 * j) 512).take 8 ≠ labelIdBytes) :
    labelSearch b1 = .ok (some (labelUnpack (readBytes b1 (512 * k) 512))) ∧
    diskOpen b2 = .error .labelNotFound := by
  constructor
  · have h32 : ¬ (readBytes b1 (512 * k) 512).length < 32 := by
      rw [readBytes_length]; omega
    rw [labelSearch, labelScanGo_eq_aligned 4 b1 0 (Nat.zero_le _)]
    interval_cases k
    · rw [show (512 * 0 : Nat) = 0 from rfl] at hmatch h32
      rw [aligned_step_match 3 b1 0 hmatch h32]
    · rw [aligned_step_skip 3 b1 0 (by simpa using hbefore 0 (by omega))]
      rw [show (512 * 1 : Nat) = 0 + 512 from rfl] at hmatch h32
      rw [aligned_step_match 2 b1 (0 + 512) hmatch h32]
    · rw [aligned_step_skip 3 b1 0 (by simpa using hbefore 0 (by omega)),
        aligned_step_skip 2 b1 (0 + 512) (by simpa using hbefore 1 (by omega))]
      rw [show (512 * 2 : Nat) = 0 + 512 + 512 from rfl] at hmatch h32
      rw [aligned_step_match 1 b1 (0 + 512 + 512) hmatch h32]
    · rw [aligned_step_skip 3 b1 0 (by simpa using hbefore 0 (by omega)),
        aligned_step_skip 2 b1 (0 + 512) (by simpa using hbefore 1 (by omega)),
        aligned_step_skip 1 b1 (0 + 512 + 512) (by simpa using hbefore 2 (by omega))]
      rw [show (512 * 3 : Nat) = 0 + 512 + 512 + 512 from rfl] at hmatch h32
      rw [aligned_step_match 0 b1 (0 + 512 + 512 + 512) hmatch h32]
  · rw [diskOpen, labelSearch_none b2 hnomatch]

set_option maxRecDepth 16384

/-- C4 witness: a device whose marker appears only at sector 2 is found
at sector 2; the empty device fails with label-not-found. -/
theorem c4_witness :
    labelSearch (List.replicate 1024 0 ++ labelIdBytes ++ List.replicate 24 0) =
      .ok (some (labelUnpack (readBytes
        (List.replicate 1024 0 ++ labelIdBytes ++ List.replicate 24 0) (512 * 2) 512))) ∧
    diskOpen [] = .error .labelNotFound :=
  c4_label_scan (List.replicate 1024 0 ++ labelIdBytes ++ List.replicate 24 0) [] 2
    (by decide) (by decide) (by decide) (by decide) (by decide)

/-- C10: on any stream — short, empty, or otherwise — with no
`LABELONE` prefix in the four sector-aligned slices, `search`
terminates with the `None` result and no exception (`ok`). -/
theorem c10_search_total (bytes : List Nat)
    (h : ∀ j, j < 4 → (readBytes bytes (512 * j) 512).take 8 ≠ labelIdBytes) :
    labelSearch bytes = .ok none :=
  labelSearch_none bytes h

/-- C10 witness: the empty stream. -/
theorem c10_witness : labelSearch [] = .ok none :=
  c10_search_total [] (by decide)

/-! ## Claim C2: `MDAHeader.write` checksum self-consistency -/

theorem mdaWriteBuffer_eq (h : MDAHeaderData) (locs : List RawLocn) :
    mdaWriteBuffer h locs =
      mdaHeaderPack { h with checksum := mdaWriteChecksum h locs } ++
        ((mdaHeaderPack h ++ (locs.map rawLocnEncode).flatten ++
          List.replicate (MDA_HEADER_SIZE -
            (mdaHeaderPack h ++ (locs.map rawLocnEncode).flatten).length) 0).drop 40) :=
  rfl

theorem mdaWriteBuffer_mem_lt (h : MDAHeaderData) (locs : List RawLocn) :
    ∀ b ∈ mdaHeaderPack h ++ (locs.map rawLocnEncode).flatten ++
      List.replicate (MDA_HEADER_SIZE -
        (mdaHeaderPack h ++ (locs.map rawLocnEncode).flatten).length) 0, b < 256 := by
  intro b hb
  simp only [List.mem_append, List.mem_flatten, List.mem_map, List.mem_replicate] at hb
  rcases hb with (h1 | ⟨l, ⟨r, _, hl⟩, hb⟩) | ⟨_, h0⟩
  · exact mdaHeaderPack_mem_lt h b h1
  · exact rawLocnEncode_mem_lt r b (hl ▸ hb)
  · omega

/-- C2: after `MDAHeader.write`, for any header state whose location
array fits the fixed 512-byte region (at most 19 entries) and whose
fields are in range for `struct.pack`, the 512-byte region written at
`header.start` is the staging buffer, that buffer is exactly 512 bytes,
and its first 4 bytes decode to the `_calc_crc` checksum of its
remaining 508 bytes. -/
theorem c2_write_header_checksum (s : List Nat) (h : MDAHeaderData)
    (locs : List RawLocn)
    (hn : locs.length ≤ 19)
    (_hv : h.version < 2 ^ 32) (_hst : h.start < 2 ^ 64) (_hsz : h.size < 2 ^ 64)
    (_hcs : h.checksum < 2 ^ 32)
    (_hlf : ∀ l ∈ locs, l.offset < 2 ^ 64 ∧ l.size < 2 ^ 64 ∧
      l.checksum < 2 ^ 32 ∧ l.flags < 2 ^ 32) :
    (mdaWriteBuffer h locs).length = 512 ∧
    readBytes (mdaWrite s h locs) h.start 512 = mdaWriteBuffer h locs ∧
    decodeLE ((mdaWriteBuffer h locs).take 4) =
      calcCrc ((mdaWriteBuffer h locs).drop 4) := by
  have hbody : (mdaHeaderPack h ++ (locs.map rawLocnEncode).flatten).length =
      40 + 24 * locs.length := by
    rw [List.length_append, mdaHeaderPack_length, rawLocnFlatten_length]
  have hraw : (mdaHeaderPack h ++ (locs.map rawLocnEncode).flatten ++
      List.replicate (MDA_HEADER_SIZE -
        (mdaHeaderPack h ++ (locs.map rawLocnEncode).flatten).length) 0).length = 512 := by
    rw [List.length_append, List.length_replicate, hbody, MDA_HEADER_SIZE]
    omega
  have hblen : (mdaWriteBuffer h locs).length = 512 := by
    rw [mdaWriteBuffer_eq, List.length_append, mdaHeaderPack_length,
      List.length_drop, hraw]
  refine ⟨hblen, ?_, ?_⟩
  · rw [mdaWrite, show (512 : Nat) = (mdaWriteBuffer h locs).length from hblen.symm,
      readBytes_writeBytes]
  · -- the staging buffer's tail beyond the checksum field is unchanged
    -- by the header re-serialization
    have hcs32 : mdaWriteChecksum h locs < 2 ^ 32 :=
      calcCrc_lt _ (fun b hb =>
        mdaWriteBuffer_mem_lt h locs b (List.mem_of_mem_drop hb))
    have hpackcs : mdaHeaderPack { h with checksum := mdaWriteChecksum h locs } =
        encodeLE (mdaWriteChecksum h locs) 4 ++ (packBytes16 h.magic ++
          (encodeLE h.version 4 ++ (encodeLE h.start 8 ++ encodeLE h.size 8))) := by
      rw [mdaHeaderPack_eq]
    have htake : (mdaWriteBuffer h locs).take 4 =
        encodeLE (mdaWriteChecksum h locs) 4 := by
      rw [mdaWriteBuffer_eq, hpackcs, List.append_assoc,
        List.take_left' (encodeLE_length _ 4)]
    have hdrop : (mdaWriteBuffer h locs).drop 4 =
        (packBytes16 h.magic ++
          (encodeLE h.version 4 ++ (encodeLE h.start 8 ++ encodeLE h.size 8))) ++
        ((mdaHeaderPack h ++ (locs.map rawLocnEncode).flatten ++
          List.replicate (MDA_HEADER_SIZE -
            (mdaHeaderPack h ++ (locs.map rawLocnEncode).flatten).length) 0).drop 40) := by
      rw [mdaWriteBuffer_eq, hpackcs, List.append_assoc,
        List.drop_left' (encodeLE_length _ 4), List.append_assoc]
    have hrawdrop4 : (mdaHeaderPack h ++ (locs.map rawLocnEncode).flatten ++
        List.replicate (MDA_HEADER_SIZE -
          (mdaHeaderPack h ++ (locs.map rawLocnEncode).flatten).length) 0).drop 4 =
        (packBytes16 h.magic ++
          (encodeLE h.version 4 ++ (encodeLE h.start 8 ++ encodeLE h.size 8))) ++
        ((locs.map rawLocnEncode).flatten ++
          List.replicate (MDA_HEADER_SIZE -
            (mdaHeaderPack h ++ (locs.map rawLocnEncode).flatten).length) 0) := by
      rw [mdaHeaderPack_eq]
      simp only [List.append_assoc]
      rw [List.drop_left' (encodeLE_length _ 4)]
    have hrawdrop40 : (mdaHeaderPack h ++ (locs.map rawLocnEncode).flatten ++
        List.replicate (MDA_HEADER_SIZE -
          (mdaHeaderPack h ++ (locs.map rawLocnEncode).flatten).length) 0).drop 40 =
        (locs.map rawLocnEncode).flatten ++
          List.replicate (MDA_HEADER_SIZE -
            (mdaHeaderPack h ++ (locs.map rawLocnEncode).flatten).length) 0 := by
      simp only [List.append_assoc]
      rw [List.drop_left' (mdaHeaderPack_length h)]
    rw [htake, decodeLE_encodeLE, show (256 : Nat) ^ 4 = 2 ^ 32 by norm_num,
      Nat.mod_eq_of_lt hcs32, hdrop, hrawdrop40]
    show mdaWriteChecksum h locs = _
    rw [mdaWriteChecksum, hrawdrop4, List.append_assoc]

/-- C2 witness: a concrete header with an empty location array. -/
theorem c2_witness :
    (mdaWriteBuffer ⟨0, [], 1, 0, 512⟩ []).length = 512 ∧
    readBytes (mdaWrite [] ⟨0, [], 1, 0, 512⟩ []) 0 512 =
      mdaWriteBuffer ⟨0, [], 1, 0, 512⟩ [] ∧
    decodeLE ((mdaWriteBuffer ⟨0, [], 1, 0, 512⟩ []).take 4) =
      calcCrc ((mdaWriteBuffer ⟨0, [], 1, 0, 512⟩ []).drop 4) :=
  c2_write_header_checksum [] ⟨0, [], 1, 0, 512⟩ [] (by decide) (by norm_num)
    (by norm_num) (by norm_num) (by norm_num) (by simp)

/-! ## Claim C5: sentinel-terminated array reads stop at the zero record -/

theorem diskLocnReadArrayGo_spec (recs : List DiskLocn) :
    ∀ (f : Nat) (pre suf : List Nat),
    (∀ r ∈ recs, r.offset ≠ 0 ∧ r.offset < 2 ^ 64 ∧ r.size < 2 ^ 64) →
    recs.length < f →
    (diskLocnReadArrayGo f
      (pre ++ ((recs.map diskLocnEncode).flatten ++ (List.replicate 16 0 ++ suf)))
      pre.length).1 = recs := by
  induction recs with
  | nil =>
    intro f pre suf _ hf
    obtain ⟨f', rfl⟩ : ∃ f', f = f' + 1 := ⟨f - 1, by omega⟩
    simp only [List.map_nil, List.flatten_nil, List.nil_append]
    rw [diskLocnReadArrayGo, readBytes_append_left,
      List.take_left' (List.length_replicate 16 0)]
    rw [if_neg (by rw [List.length_replicate]; omega), if_pos (by decide)]
  | cons r rs ih =>
    intro f pre suf hv hf
    obtain ⟨f', rfl⟩ : ∃ f', f = f' + 1 := ⟨f - 1, by omega⟩
    have hr := hv r (by simp)
    have henc : (diskLocnEncode r).length = 16 := diskLocnEncode_length r
    simp only [List.map_cons, List.flatten_cons, List.append_assoc]
    rw [diskLocnReadArrayGo, readBytes_append_left, List.take_left' henc]
    rw [if_neg (by rw [henc]; omega),
      diskLocnDecode_encode r hr.2.1 hr.2.2, if_neg hr.1]
    have hre : pre.length + 16 = (pre ++ diskLocnEncode r).length := by
      simp [henc]
    rw [hre, show pre ++ (diskLocnEncode r ++ ((rs.map diskLocnEncode).flatten ++
        (List.replicate 16 0 ++ suf))) = (pre ++ diskLocnEncode r) ++
        ((rs.map diskLocnEncode).flatten ++ (List.replicate 16 0 ++ suf)) by
      simp [List.append_assoc]]
    exact congrArg (fun l => r :: l)
      (ih f' (pre ++ diskLocnEncode r) suf
        (fun x hx => hv x (by simp [hx])) (by simpa using hf))

theorem rawLocnReadArrayGo_spec (recs : List RawLocn) :
    ∀ (f : Nat) (pre suf : List Nat),
    (∀ r ∈ recs, r.offset ≠ 0 ∧ r.offset < 2 ^ 64 ∧ r.size < 2 ^ 64 ∧
      r.checksum < 2 ^ 32 ∧ r.flags < 2 ^ 32) →
    recs.length < f →
    (rawLocnReadArrayGo f
      (pre ++ ((recs.map rawLocnEncode).flatten ++ (List.replicate 24 0 ++ suf)))
      pre.length).1 = recs := by
  induction recs with
  | nil =>
    intro f pre suf _ hf
    obtain ⟨f', rfl⟩ : ∃ f', f = f' + 1 := ⟨f - 1, by omega⟩
    simp only [List.map_nil, List.flatten_nil, List.nil_append]
    rw [rawLocnReadArrayGo, readBytes_append_left,
      List.take_left' (List.length_replicate 24 0)]
    rw [if_neg (by rw [List.length_replicate]; omega), if_pos (by decide)]
  | cons r rs ih =>
    intro f pre suf hv hf
    obtain ⟨f', rfl⟩ : ∃ f', f = f' + 1 := ⟨f - 1, by omega⟩
    have hr := hv r (by simp)
    have henc : (rawLocnEncode r).length = 24 := rawLocnEncode_length r
    simp only [List.map_cons, List.flatten_cons, List.append_assoc]
    rw [rawLocnReadArrayGo, readBytes_append_left, List.take_left' henc]
    rw [if_neg (by rw [henc]; omega),
      rawLocnDecode_encode r hr.2.1 hr.2.2.1 hr.2.2.2.1 hr.2.2.2.2, if_neg hr.1]
    have hre : pre.length + 24 = (pre ++ rawLocnEncode r).length := by
      simp [henc]
    rw [hre, show pre ++ (rawLocnEncode r ++ ((rs.map rawLocnEncode).flatten ++
        (List.replicate 24 0 ++ suf))) = (pre ++ rawLocnEncode r) ++
        ((rs.map rawLocnEncode).flatten ++ (List.replicate 24 0 ++ suf)) by
      simp [List.append_assoc]]
    exact congrArg (fun l => r :: l)
      (ih f' (pre ++ rawLocnEncode r) suf
        (fun x hx => hv x (by simp [hx])) (by simpa using hf))

/-- C5: a stream holding `N` non-sentinel records (offset field nonzero,
fields in range) followed by an all-zero record of the schema size
decodes to exactly the `N` records — never `N + 1` — for both the
16-byte `DiskLocN` schema and the 24-byte `RawLocN` schema; reading
stops at the short read or at the zero offset by construction of the
loop. -/
theorem c5_sentinel_arrays (pre dsuf pre2 rsuf : List Nat)
    (drecs : List DiskLocn) (rrecs : List RawLocn)
    (hd : ∀ r ∈ drecs, r.offset ≠ 0 ∧ r.offset < 2 ^ 64 ∧ r.size < 2 ^ 64)
    (hr : ∀ r ∈ rrecs, r.offset ≠ 0 ∧ r.offset < 2 ^ 64 ∧ r.size < 2 ^ 64 ∧
      r.checksum < 2 ^ 32 ∧ r.flags < 2 ^ 32) :
    (diskLocnReadArray
      (pre ++ ((drecs.map diskLocnEncode).flatten ++ (List.replicate 16 0 ++ dsuf)))
      pre.length).1 = drecs ∧
    (rawLocnReadArray
      (pre2 ++ ((rrecs.map rawLocnEncode).flatten ++ (List.replicate 24 0 ++ rsuf)))
      pre2.length).1 = rrecs := by
  constructor
  · apply diskLocnReadArrayGo_spec drecs _ pre dsuf hd
    have h1 : ((drecs.map diskLocnEncode).flatten).length = 16 * drecs.length :=
      diskLocnFlatten_length drecs
    simp only [List.length_append, List.length_replicate, h1]
    omega
  · apply rawLocnReadArrayGo_spec rrecs _ pre2 rsuf hr
    have h1 : ((rrecs.map rawLocnEncode).flatten).length = 24 * rrecs.length :=
      rawLocnFlatten_length rrecs
    simp only [List.length_append, List.length_replicate, h1]
    omega

/-- C5 witness: one 16-byte entry then the zero record, and one 24-byte
entry then the zero record. -/
theorem c5_witness :
    (diskLocnReadArray
      (([] : List Nat) ++ (([⟨4096, 1024⟩] : List DiskLocn).map diskLocnEncode).flatten ++
        (List.replicate 16 0 ++ [])) (([] : List Nat)).length).1 = [⟨4096, 1024⟩] ∧
    (rawLocnReadArray
      (([] : List Nat) ++ (([⟨512, 100, 7, 0⟩] : List RawLocn).map rawLocnEncode).flatten ++
        (List.replicate 24 0 ++ [])) (([] : List Nat)).length).1 = [⟨512, 100, 7, 0⟩] := by
  have h := c5_sentinel_arrays [] [] [] [] [⟨4096, 1024⟩] [⟨512, 100, 7, 0⟩]
    (by norm_num) (by norm_num)
  simpa using h

/-! ## Claim C3: `MDAHeader.write_metadata` -/

theorem utf8Encode_append (a b : List Char) :
    utf8Encode (a ++ b) = utf8Encode a ++ utf8Encode b := by
  simp [utf8Encode]

theorem mdaWriteBuffer_length (h : MDAHeaderData) (locs : List RawLocn)
    (hn : locs.length ≤ 19) : (mdaWriteBuffer h locs).length = 512 := by
  have hbody : (mdaHeaderPack h ++ (locs.map rawLocnEncode).flatten).length =
      40 + 24 * locs.length := by
    rw [List.length_append, mdaHeaderPack_length, rawLocnFlatten_length]
  have hraw : (mdaHeaderPack h ++ (locs.map rawLocnEncode).flatten ++
      List.replicate (MDA_HEADER_SIZE -
        (mdaHeaderPack h ++ (locs.map rawLocnEncode).flatten).length) 0).length = 512 := by
    rw [List.length_append, List.length_replicate, hbody, MDA_HEADER_SIZE]
    omega
  rw [mdaWriteBuffer_eq, List.length_append, mdaHeaderPack_length,
    List.length_drop, hraw]

/-- C3: for a header whose committed entry is at index 0 (and whose
fixed record is present), `write_metadata` encodes the value with a
single trailing NUL appended (`raw`), writes exactly those bytes at
`header.start + entry.offset`, replaces the committed entry's size with
the byte count and its checksum with the `_calc_crc` of those bytes
(leaving the other entries untouched), and then rewrites the header
region via `MDAHeader.write`.  The blob bytes survive the header
rewrite whenever the blob lies beyond the fixed 512-byte header region
and the location array fits it. -/
theorem c3_write_metadata (bytes : List Nat) (hdr : MDAHeaderObj) (md : Metadata)
    (loc locNew : RawLocn) (tl : List RawLocn) (h : MDAHeaderData)
    (raw : List Nat)
    (hl : hdr.raw_locns = loc :: tl)
    (hd : hdr.data = some h)
    (hraw : raw = metadataEncode md)
    (hlocNew : locNew = { loc with size := raw.length, checksum := calcCrc raw })
    (hoff : 512 ≤ loc.offset)
    (hn : tl.length ≤ 18) :
    mdaWriteMetadata bytes hdr md = .ok
      (mdaWrite (writeBytes bytes (h.start + loc.offset) raw) h (locNew :: tl),
       ⟨some { h with checksum := mdaWriteChecksum h (locNew :: tl) },
        locNew :: tl⟩) ∧
    raw = utf8Encode (encodeDict md.data) ++ [0] ∧
    readBytes (mdaWrite (writeBytes bytes (h.start + loc.offset) raw) h (locNew :: tl))
      (h.start + loc.offset) raw.length = raw := by
  subst hraw hlocNew
  refine ⟨?_, ?_, ?_⟩
  · simp only [mdaWriteMetadata, hl, hd]
  · rw [metadataEncode, encodeData, utf8Encode_append]
    rfl
  · rw [mdaWrite, readBytes_writeBytes_of_le _ h.start _ _ _
      (by rw [mdaWriteBuffer_length h _ (by simp; omega)]; omega),
      readBytes_writeBytes]

/-- C3 witness: a one-entry location array, blob at offset 512. -/
theorem c3_witness :
    mdaWriteMetadata [] ⟨some ⟨0, [], 1, 0, 1024⟩, [⟨512, 0, 0, 0⟩]⟩
        ⟨['a'], [(['a'], .int 1)]⟩ = .ok
      (mdaWrite (writeBytes [] ((0 : Nat) + 512)
          (metadataEncode ⟨['a'], [(['a'], .int 1)]⟩)) ⟨0, [], 1, 0, 1024⟩
        [⟨512, (metadataEncode ⟨['a'], [(['a'], .int 1)]⟩).length,
          calcCrc (metadataEncode ⟨['a'], [(['a'], .int 1)]⟩), 0⟩],
       ⟨some ⟨mdaWriteChecksum ⟨0, [], 1, 0, 1024⟩
          [⟨512, (metadataEncode ⟨['a'], [(['a'], .int 1)]⟩).length,
            calcCrc (metadataEncode ⟨['a'], [(['a'], .int 1)]⟩), 0⟩], [], 1, 0, 1024⟩,
        [⟨512, (metadataEncode ⟨['a'], [(['a'], .int 1)]⟩).length,
          calcCrc (metadataEncode ⟨['a'], [(['a'], .int 1)]⟩), 0⟩]⟩) ∧
    metadataEncode ⟨['a'], [(['a'], .int 1)]⟩ =
      utf8Encode (encodeDict [(['a'], .int 1)]) ++ [0] ∧
    readBytes
      (mdaWrite (writeBytes [] ((0 : Nat) + 512)
          (metadataEncode ⟨['a'], [(['a'], .int 1)]⟩)) ⟨0, [], 1, 0, 1024⟩
        [⟨512, (metadataEncode ⟨['a'], [(['a'], .int 1)]⟩).length,
          calcCrc (metadataEncode ⟨['a'], [(['a'], .int 1)]⟩), 0⟩])
      ((0 : Nat) + 512) (metadataEncode ⟨['a'], [(['a'], .int 1)]⟩).length =
      metadataEncode ⟨['a'], [(['a'], .int 1)]⟩ :=
  c3_write_metadata [] ⟨some ⟨0, [], 1, 0, 1024⟩, [⟨512, 0, 0, 0⟩]⟩
    ⟨['a'], [(['a'], .int 1)]⟩ ⟨512, 0, 0, 0⟩
    ⟨512, (metadataEncode ⟨['a'], [(['a'], .int 1)]⟩).length,
      calcCrc (metadataEncode ⟨['a'], [(['a'], .int 1)]⟩), 0⟩
    [] ⟨0, [], 1, 0, 1024⟩ (metadataEncode ⟨['a'], [(['a'], .int 1)]⟩)
    rfl rfl rfl rfl (by decide) (by simp)

/-! ## Claim C7: handle release -/

/-- C7 counterexample.  The claim says the handle is released exactly
once on every exit path; on the path where the label search fails (an
empty device), `Disk.open` raises before any `with` scope exists and
the freshly opened handle is closed zero times. -/
theorem c7_counterexample : session [] = (.error .labelNotFound, 0) := by rfl

/-- C7 (amended): the handle is never closed twice, and it is closed
exactly once precisely on the sessions where `Disk.open` succeeds
(including those whose body fails while decoding or parsing a metadata
area); on the paths where `Disk.open` itself raises — label not found,
or a short matching sector — the handle is never closed and leaks. -/
theorem c7_close_exactly_once_when_opened (bytes : List Nat) :
    (session bytes).2 ≤ 1 ∧
    (exceptOk (diskOpen bytes) = true ↔ (session bytes).2 = 1) := by
  cases h : diskOpen bytes <;> simp [session, h, exceptOk]

/-! ## Claim C8: `read_metadata` truncation and encoding behaviour -/

/-- C8 counterexample.  The claim says a stream with fewer than
`entry.size` bytes available fails with a truncation error; the source
never checks the read length, and here a 5-byte blob under a
100-byte entry parses successfully. -/
theorem c8_counterexample :
    (List.replicate 512 0 ++ [120, 32, 61, 32, 49]).length < 512 + 100 ∧
    mdaReadMetadata (List.replicate 512 0 ++ [120, 32, 61, 32, 49])
        ⟨some ⟨0, [], 1, 0, 1024⟩, [⟨512, 100, 0, 0⟩]⟩ =
      .ok ⟨['x'], [(['x'], .int 1)]⟩ := by
  exact ⟨by decide, by rfl⟩

/-- C8 (amended): `read_metadata` reads `min(entry.size, available)`
bytes with no truncation check, and fails with an encoding error when
the bytes actually read are not valid UTF-8; a short read is otherwise
decoded as-is. -/
theorem c8_read_no_truncation_check (bytes : List Nat) (hdr : MDAHeaderObj)
    (loc : RawLocn) (tl : List RawLocn) (h : MDAHeaderData)
    (hl : hdr.raw_locns = loc :: tl) (hd : hdr.data = some h) :
    (readBytes bytes (h.start + loc.offset) loc.size).length =
      min loc.size (bytes.length - (h.start + loc.offset)) ∧
    (utf8Decode (readBytes bytes (h.start + loc.offset) loc.size) = none →
      mdaReadMetadata bytes hdr = .error .encodingError) := by
  refine ⟨readBytes_length _ _ _, fun hu => ?_⟩
  simp [mdaReadMetadata, hl, hd, metadataDecode, hu]

/-- C8 witness: a blob that is not valid UTF-8 (a lone `0xff` byte). -/
theorem c8_witness :
    mdaReadMetadata (List.replicate 512 0 ++ [255])
        ⟨some ⟨0, [], 1, 0, 1024⟩, [⟨512, 1, 0, 0⟩]⟩ = .error .encodingError :=
  (c8_read_no_truncation_check (List.replicate 512 0 ++ [255])
      ⟨some ⟨0, [], 1, 0, 1024⟩, [⟨512, 1, 0, 0⟩]⟩ ⟨512, 1, 0, 0⟩ []
      ⟨0, [], 1, 0, 1024⟩ rfl rfl).2 (by decide)

/-! ## Claim C6: failure behaviour of the metadata text parser -/

/-- C6 counterexample.  The claim says malformed token streams fail and
never produce a partial structure; a blob whose token stream is
exhausted with an unmatched open brace parses successfully into a
(truncated) mapping, because `parse_dict` returns its partial result
when the tokens run out. -/
theorem c6_counterexample :
    decodeData (String.toList "vg \x7b a = 1") =
      some (String.toList "vg",
        [(String.toList "vg", .dict [(String.toList "a", .int 1)])]) := by rfl

/-- C6 (amended): token exhaustion inside a string, a value position or
an array does raise (modelled `none`), and a non-numeric bare scalar
raises (`ValueError`), but a token stream exhausted at a mapping's key
boundary — e.g. an unmatched open brace — silently yields the partial
mapping (the same early return that terminates the brace-less top
level). -/
theorem c6_malformed_streams :
    decodeData (String.toList "vg = \x22abc") = none ∧
    decodeData (String.toList "vg = abc") = none ∧
    decodeData (String.toList "vg = [ 1") = none ∧
    decodeData (String.toList "vg \x7b a = 1") =
      some (String.toList "vg",
        [(String.toList "vg", .dict [(String.toList "a", .int 1)])]) :=
  ⟨rfl, rfl, rfl, rfl⟩

/-! ## Claim C1: encode/parse round trip

The development below shows `decode_data (encode_data M) = (k, M)` for
every valid nonempty metadata mapping `M` with first key `k`.  It
proceeds in stages: decimal integers round-trip; the tokenizer turns
`encode_data M` into the token-level image `tokensDict M`; the
recursive-descent parser consumes that token sequence back into `M`. -/

/-! ### Decimal integers round-trip -/

theorem digitChar_digit (d : Nat) (h : d < 10) :
    isDigitChar (digitChar d) = true ∧ (digitChar d).toNat = 48 + d := by
  interval_cases d <;> exact ⟨by decide, by decide⟩

theorem natToDigitsGo_spec (f : Nat) : ∀ n, n ≤ f →
    (natToDigitsGo f n).all isDigitChar = true ∧ natToDigitsGo f n ≠ [] ∧
    (natToDigitsGo f n).foldl (fun a c => 10 * a + (c.toNat - 48)) 0 = n := by
  induction f with
  | zero =>
    intro n hn
    have h0 : n = 0 := by omega
    subst h0
    exact ⟨by decide, by decide, by decide⟩
  | succ f ih =>
    intro n hn
    by_cases h10 : n < 10
    · have h1 := digitChar_digit n h10
      simp only [natToDigitsGo, if_pos h10]
      refine ⟨by simp [h1.1], by simp, ?_⟩
      simp [List.foldl_cons, h1.2]
    · have hdiv : n / 10 ≤ f := by
        have := Nat.div_lt_self (show 0 < n by omega) (show 1 < 10 by omega)
        omega
      have ihd := ih (n / 10) hdiv
      have h1 := digitChar_digit (n % 10) (Nat.mod_lt n (by omega))
      simp only [natToDigitsGo, if_neg h10]
      refine ⟨?_, by simp, ?_⟩
      · rw [List.all_append]
        simp [ihd.1, h1.1]
      · rw [List.foldl_append, ihd.2.2]
        simp only [List.foldl_cons, List.foldl_nil, h1.2]
        omega

theorem parseNatTok_natToDigits (n : Nat) :
    parseNatTok (natToDigits n) = some n := by
  have h := natToDigitsGo_spec n n le_rfl
  rw [natToDigits, parseNatTok, if_pos ⟨h.2.1, h.1⟩, h.2.2]

theorem isDigitChar_ne_minus (c : Char) (h : isDigitChar c = true) : c ≠ '-' := by
  intro he
  rw [he] at h
  exact absurd h (by decide)

theorem parseIntTok_digits (l : List Char) (hne : l ≠ [])
    (hd : l.all isDigitChar = true) :
    parseIntTok l = (parseNatTok l).map (fun n => (n : Int)) := by
  cases l with
  | nil => exact absurd rfl hne
  | cons c cs =>
    have hc : isDigitChar c = true := by
      simp only [List.all_cons, Bool.and_eq_true] at hd
      exact hd.1
    have hcm := isDigitChar_ne_minus c hc
    rw [parseIntTok.eq_def]
    split
    · simp at *
    · rename_i heq
      rw [List.cons.injEq] at heq
      exact absurd heq.1 hcm
    · rfl

theorem parseIntTok_intToStr (n : Int) : parseIntTok (intToStr n) = some n := by
  cases n with
  | ofNat m =>
    have h := natToDigitsGo_spec m m le_rfl
    rw [intToStr, natToDigits, parseIntTok_digits _ h.2.1 h.1, ← natToDigits,
      parseNatTok_natToDigits]
    rfl
  | negSucc m =>
    show parseIntTok ('-' :: natToDigits (m + 1)) = _
    rw [parseIntTok.eq_def]
    split
    · simp at *
    · rename_i heq
      rw [List.cons.injEq] at heq
      rw [← heq.2, parseNatTok_natToDigits]
      simp [Int.negSucc_eq]
    · rename_i hno
      exact absurd rfl (hno (natToDigits (m + 1)))

theorem intToStr_chars (n : Int) (c : Char) (hc : c ∈ intToStr n) :
    isDigitChar c = true ∨ c = '-' := by
  cases n with
  | ofNat m =>
    have h := natToDigitsGo_spec m m le_rfl
    simp only [intToStr] at hc
    exact Or.inl (by simpa using List.all_eq_true.mp h.1 c hc)
  | negSucc m =>
    have h := natToDigitsGo_spec (m + 1) (m + 1) le_rfl
    simp only [intToStr, List.mem_cons] at hc
    rcases hc with rfl | hc
    · exact Or.inr rfl
    · exact Or.inl (by simpa using List.all_eq_true.mp h.1 c hc)

/-- Digits and the minus sign are untouched by every pass of the
tokenizer and are not whitespace, comment, structural or NUL
characters. -/
theorem digitOrMinus_plain (c : Char) (h : isDigitChar c = true ∨ c = '-') :
    isSpaceChar c = false ∧ plainChar c = true ∧ c ≠ '#' ∧ c ≠ '{' ∧ c ≠ '}' ∧
      c ≠ '\x00' ∧ c ≠ '"' ∧ c ≠ '[' ∧ c ≠ ']' := by
  rcases h with h | rfl
  · have hne : ∀ x : Char, isDigitChar x = false → c ≠ x := by
      intro x hx he
      rw [he, hx] at h
      exact absurd h (by simp)
    have h1 := hne ' ' (by decide)
    have h2 := hne '\t' (by decide)
    have h3 := hne '\n' (by decide)
    have h4 := hne '\r' (by decide)
    have h5 := hne '\x0b' (by decide)
    have h6 := hne '\x0c' (by decide)
    have h7 := hne '[' (by decide)
    have h8 := hne ']' (by decide)
    have h9 := hne '"' (by decide)
    have h10 := hne '=' (by decide)
    have h11 := hne ',' (by decide)
    have h12 := hne '#' (by decide)
    have h13 := hne '{' (by decide)
    have h14 := hne '}' (by decide)
    have h15 := hne '\x00' (by decide)
    refine ⟨?_, ?_, h12, h13, h14, h15, h9, h7, h8⟩
    · simp [isSpaceChar, h1, h2, h3, h4, h5, h6]
    · simp [plainChar, h7, h8, h9, h10, h11]
  · exact ⟨by decide, by decide, by decide, by decide, by decide, by decide,
      by decide, by decide, by decide⟩

/-! ### Splitting on whitespace -/

theorem splitAux_append_space (c : Char) (hc : isSpaceChar c = true) (y : List Char) :
    ∀ (x cur : List Char),
    splitAux (x ++ c :: y) cur = splitAux (x ++ [c]) cur ++ splitAux y [] := by
  intro x
  induction x with
  | nil =>
    intro cur
    by_cases hcur : cur = [] <;> simp [splitAux, hc, hcur]
  | cons d x ih =>
    intro cur
    by_cases hd : isSpaceChar d
    · by_cases hcur : cur = [] <;> simp [splitAux, hd, hcur, ih []]
    · simpa [splitAux, hd] using ih (d :: cur)

theorem splitAux_concat_space (c : Char) (hc : isSpaceChar c = true) :
    ∀ (x cur : List Char), splitAux (x ++ [c]) cur = splitAux x cur := by
  intro x
  induction x with
  | nil =>
    intro cur
    by_cases hcur : cur = [] <;> simp [splitAux, hc, hcur]
  | cons d x ih =>
    intro cur
    by_cases hd : isSpaceChar d
    · by_cases hcur : cur = [] <;> simp [splitAux, hd, hcur, ih []]
    · simpa [splitAux, hd] using ih (d :: cur)

theorem splitTokens_sep (c : Char) (hc : isSpaceChar c = true) (x y : List Char) :
    splitTokens (x ++ c :: y) = splitTokens x ++ splitTokens y := by
  rw [splitTokens, splitTokens, splitTokens, splitAux_append_space c hc y x [],
    splitAux_concat_space c hc x []]

theorem splitTokens_cons_space (c : Char) (hc : isSpaceChar c = true) (y : List Char) :
    splitTokens (c :: y) = splitTokens y := by
  simpa using splitTokens_sep c hc [] y

theorem splitAux_nonspace (t : List Char) (ht : ∀ ch ∈ t, isSpaceChar ch = false) :
    ∀ cur, splitAux t cur =
      if cur.reverse ++ t = [] then [] else [cur.reverse ++ t] := by
  induction t with
  | nil =>
    intro cur
    simp only [splitAux, List.append_nil]
    by_cases hcur : cur = []
    · simp [hcur]
    · rw [if_neg hcur, if_neg (by simpa using hcur)]
  | cons ch t ih =>
    intro cur
    have hch : isSpaceChar ch = false := ht ch (by simp)
    simp only [splitAux, hch, Bool.false_eq_true, if_false]
    rw [ih (fun x hx => ht x (by simp [hx])) (ch :: cur)]
    simp [List.reverse_cons, List.append_assoc]

theorem splitTokens_single (t : List Char) (ht : ∀ ch ∈ t, isSpaceChar ch = false)
    (hne : t ≠ []) : splitTokens t = [t] := by
  rw [splitTokens, splitAux_nonspace t ht [], List.reverse_nil, List.nil_append,
    if_neg hne]

/-- Tokens produced by the splitter are nonempty, whitespace-free, and
made of characters of the input (or of the pending partial token). -/
theorem splitAux_tokens (l : List Char) :
    ∀ cur, (∀ ch ∈ cur, isSpaceChar ch = false) →
    ∀ t ∈ splitAux l cur, t ≠ [] ∧
      ∀ ch ∈ t, isSpaceChar ch = false ∧ (ch ∈ l ∨ ch ∈ cur) := by
  induction l with
  | nil =>
    intro cur hcur t ht
    simp only [splitAux] at ht
    by_cases hc : cur = []
    · simp [hc] at ht
    · rw [if_neg hc] at ht
      simp only [List.mem_singleton] at ht
      subst ht
      refine ⟨by simpa using hc, fun ch hch => ?_⟩
      rw [List.mem_reverse] at hch
      exact ⟨hcur ch hch, Or.inr hch⟩
  | cons c l ih =>
    intro cur hcur t ht
    simp only [splitAux] at ht
    by_cases hc : isSpaceChar c
    · rw [if_pos hc] at ht
      by_cases hcu : cur = []
      · rw [if_pos hcu] at ht
        have := ih [] (by simp) t ht
        exact ⟨this.1, fun ch hch =>
          ⟨(this.2 ch hch).1, by
            rcases (this.2 ch hch).2 with h | h
            · exact Or.inl (by simp [h])
            · simp at h⟩⟩
      · rw [if_neg hcu] at ht
        rcases List.mem_cons.mp ht with rfl | ht
        · refine ⟨by simpa using hcu, fun ch hch => ?_⟩
          rw [List.mem_reverse] at hch
          exact ⟨hcur ch hch, Or.inr hch⟩
        · have := ih [] (by simp) t ht
          exact ⟨this.1, fun ch hch =>
            ⟨(this.2 ch hch).1, by
              rcases (this.2 ch hch).2 with h | h
              · exact Or.inl (by simp [h])
              · simp at h⟩⟩
    · rw [if_neg hc] at ht
      have hcur' : ∀ ch ∈ c :: cur, isSpaceChar ch = false := by
        intro ch hch
        rcases List.mem_cons.mp hch with rfl | hch
        · simpa using hc
        · exact hcur ch hch
      have := ih (c :: cur) hcur' t ht
      refine ⟨this.1, fun ch hch => ⟨(this.2 ch hch).1, ?_⟩⟩
      rcases (this.2 ch hch).2 with h | h
      · exact Or.inl (by simp [h])
      · rcases List.mem_cons.mp h with rfl | h
        · exact Or.inl (by simp)
        · exact Or.inr h

theorem splitAux_collapse : ∀ (l : List Char) (cur : List Char),
    splitAux (collapseWs l) cur = splitAux l cur := by
  intro l
  induction l with
  | nil => intro cur; rfl
  | cons c rest ih =>
    intro cur
    cases rest with
    | nil =>
      by_cases hc : isSpaceChar c
      · rw [show collapseWs [c] = [' '] by simp [collapseWs, hc]]
        by_cases hcur : cur = [] <;>
          simp [splitAux, hc, hcur, show isSpaceChar ' ' = true from by decide]
      · rw [show collapseWs [c] = [c] by simp [collapseWs, hc]]
    | cons c' r =>
      by_cases hc : isSpaceChar c
      · by_cases hc' : isSpaceChar c'
        · rw [show collapseWs (c :: c' :: r) = collapseWs (c' :: r) by
            simp [collapseWs, hc, hc'], ih cur]
          by_cases hcur : cur = [] <;> simp [splitAux, hcur, hc, hc']
        · rw [show collapseWs (c :: c' :: r) = ' ' :: collapseWs (c' :: r) by
            simp [collapseWs, hc, hc']]
          by_cases hcur : cur = [] <;>
            simp [splitAux, hcur, hc, hc', ih [],
              show isSpaceChar ' ' = true from by decide]
      · rw [show collapseWs (c :: c' :: r) = c :: collapseWs (c' :: r) by
          simp [collapseWs, hc]]
        simpa [splitAux, hc] using ih (c :: cur)

/-! ### The character substitutions on encoder output -/

theorem subPasses_append (a b : List Char) :
    subPasses (a ++ b) = subPasses a ++ subPasses b := by
  simp [subPasses, subOpenBr, subCloseBr, subQuote, delEqComma]

theorem subPasses_cons (c : Char) (l : List Char) :
    subPasses (c :: l) = subPasses [c] ++ subPasses l := by
  simpa using subPasses_append [c] l

theorem subPasses_singleton_plain (c : Char) (h : plainChar c = true) :
    subPasses [c] = [c] := by
  simp only [plainChar, Bool.and_eq_true, decide_eq_true_eq] at h
  obtain ⟨⟨⟨⟨h1, h2⟩, h3⟩, h4⟩, h5⟩ := h
  simp [subPasses, subOpenBr, subCloseBr, subQuote, delEqComma, h1, h2, h3, h4, h5]

theorem subPasses_id (l : List Char) (h : ∀ c ∈ l, plainChar c = true) :
    subPasses l = l := by
  induction l with
  | nil => rfl
  | cons c t ih =>
    rw [subPasses_cons, subPasses_singleton_plain c (h c (by simp)),
      ih (fun x hx => h x (by simp [hx]))]
    rfl

theorem subPasses_nil : subPasses [] = [] := rfl

/-! ### Comment stripping on hash-free text -/

theorem stripCommentsGo_id (f : Nat) : ∀ l, (∀ c ∈ l, c ≠ '#') →
    stripCommentsGo f l = l := by
  induction f with
  | zero => intro l _; rfl
  | succ f ih =>
    intro l hl
    cases l with
    | nil => rfl
    | cons c rest =>
      have hc : c ≠ '#' := hl c (by simp)
      rw [stripCommentsGo, if_neg (by simp [hc]),
        ih rest (fun x hx => hl x (by simp [hx]))]

theorem stripComments_id (l : List Char) (h : ∀ c ∈ l, c ≠ '#') :
    stripComments l = l :=
  stripCommentsGo_id l.length l h

/-! ### Peeling the trailing NUL -/

theorem collapseWs_cons2 (d d' : Char) (rest : List Char) :
    collapseWs (d :: d' :: rest) =
      if isSpaceChar d then
        if isSpaceChar d' then collapseWs (d' :: rest)
        else ' ' :: collapseWs (d' :: rest)
      else d :: collapseWs (d' :: rest) := rfl

theorem collapseWs_concat_nonspace (c : Char) (hc : isSpaceChar c = false) :
    ∀ x, collapseWs (x ++ [c]) = collapseWs x ++ [c] := by
  intro x
  induction x with
  | nil => simp [collapseWs, hc]
  | cons d t ih =>
    cases t with
    | nil =>
      by_cases hd : isSpaceChar d <;>
        simp [collapseWs, collapseWs_cons2, hd, hc]
    | cons d' t' =>
      rw [show (d :: d' :: t') ++ [c] = d :: d' :: (t' ++ [c]) from rfl,
        collapseWs_cons2, collapseWs_cons2]
      have ih' : collapseWs (d' :: (t' ++ [c])) = collapseWs (d' :: t') ++ [c] := ih
      by_cases hd : isSpaceChar d
      · by_cases hd' : isSpaceChar d' <;> simp [hd, hd', ih']
      · simp [hd, ih']

theorem dropTrailNul_concat (y : List Char) :
    dropTrailNul (y ++ ['\x00']) = y := by
  rw [dropTrailNul, if_pos (by rw [List.getLast?_concat]), List.dropLast_concat]

/-! ### Character classes of valid keys and strings -/

theorem okKeyChar_facts (c : Char) (h : okKeyChar c = true) :
    isSpaceChar c = false ∧ plainChar c = true ∧ c ≠ '#' ∧ c ≠ '\x00' := by
  simp only [okKeyChar, Bool.and_eq_true, Bool.not_eq_true', decide_eq_true_eq] at h
  obtain ⟨⟨⟨⟨⟨⟨⟨hA, hB⟩, hC⟩, hD⟩, hE⟩, hF⟩, hG⟩, hH⟩ := h
  exact ⟨hA, by simp [plainChar, hB, hC, hD, hE, hF], hG, hH⟩

theorem okStrChar_facts (c : Char) (h : okStrChar c = true) :
    plainChar c = true ∧ c ≠ '#' ∧ c ≠ '\x00' ∧ (c = ' ' ∨ isSpaceChar c = false) := by
  simp only [okStrChar, Bool.and_eq_true, Bool.or_eq_true, Bool.not_eq_true',
    decide_eq_true_eq] at h
  obtain ⟨⟨⟨⟨⟨⟨⟨hA, hB⟩, hC⟩, hD⟩, hE⟩, hF⟩, hG⟩, hH⟩ := h
  exact ⟨by simp [plainChar, hB, hC, hD, hE, hF], hG, hH, hA⟩

theorem validStr_all (s : List Char) (h : validStr s = true) :
    (∀ c ∈ s, okStrChar c = true) ∧ s = unsplit (splitTokens s) := by
  simp only [validStr, Bool.and_eq_true, List.all_eq_true, beq_iff_eq] at h
  exact ⟨fun c hc => h.1 c hc, h.2⟩

theorem validKey_facts (k : List Char) (h : validKey k = true) :
    k ≠ [] ∧ (∀ c ∈ k, okKeyChar c = true) ∧ k ≠ ['{'] ∧ k ≠ ['}'] := by
  simp only [validKey, Bool.and_eq_true, Bool.not_eq_true', List.all_eq_true,
    decide_eq_true_eq] at h
  obtain ⟨⟨⟨h1, h2⟩, h3⟩, h4⟩ := h
  refine ⟨?_, fun c hc => h2 c hc, h3, h4⟩
  intro he
  rw [he] at h1
  simp at h1

theorem validScalar_validVal (v : PVal) (h : validScalar v = true) :
    validVal v = true := by
  cases v with
  | int n => rfl
  | str s => exact h
  | list vs => exact absurd h (by simp [validScalar])
  | dict d => exact absurd h (by simp [validScalar])

theorem validDict_facts (k : List Char) (v : PVal) (tl : List (List Char × PVal))
    (h : validDict ((k, v) :: tl) = true) :
    validKey k = true ∧ validVal v = true ∧ (∀ p ∈ tl, p.1 ≠ k) ∧
      validDict tl = true := by
  simp only [validDict, Bool.and_eq_true, List.all_eq_true, Bool.not_eq_true',
    beq_eq_false_iff_ne, ne_eq] at h
  obtain ⟨⟨⟨h1, h2⟩, h3⟩, h4⟩ := h
  exact ⟨h1, h2, fun p hp => h3 p hp, h4⟩

/-! ### Encoder output contains no comment character -/

theorem encodeDict_cons (k : List Char) (v : PVal) (tl : List (List Char × PVal)) :
    encodeDict ((k, v) :: tl) = k ++ (match v with
      | PVal.dict _ => [' ']
      | _ => [' ', '=', ' ']) ++ encodeVal v ++ '\n' :: encodeDict tl := by
  cases v <;> rfl

mutual

theorem encodeVal_no_hash (v : PVal) (hv : validVal v = true) :
    ∀ c ∈ encodeVal v, c ≠ '#' := by
  intro c hc
  cases v with
  | int n =>
    exact (digitOrMinus_plain c (intToStr_chars n c hc)).2.2.1
  | str s =>
    simp only [encodeVal, List.mem_append, List.mem_cons, List.not_mem_nil,
      or_false] at hc
    rcases hc with (rfl | hc) | rfl
    · decide
    · exact ((okStrChar_facts c ((validStr_all s hv).1 c hc)).2.1)
    · decide
  | list vs =>
    simp only [encodeVal, List.mem_append, List.mem_cons, List.not_mem_nil,
      or_false] at hc
    rcases hc with (rfl | hc) | rfl
    · decide
    · exact encodeList_no_hash vs hv c hc
    · decide
  | dict d =>
    simp only [encodeVal, List.mem_append, List.mem_cons, List.not_mem_nil,
      or_false] at hc
    rcases hc with (rfl | rfl | hc) | (rfl | rfl)
    · decide
    · decide
    · exact encodeDict_no_hash d hv c hc
    · decide
    · decide

theorem encodeList_no_hash (vs : List PVal) (hv : vs.all validScalar = true) :
    ∀ c ∈ encodeList vs, c ≠ '#' := by
  intro c hc
  match vs with
  | [] => simp [encodeList] at hc
  | [v] =>
    have h1 : validScalar v = true := by simpa using hv
    exact encodeVal_no_hash v (validScalar_validVal v h1) c (by simpa [encodeList] using hc)
  | v :: v' :: vs =>
    have h1 : validScalar v = true := by
      simp only [List.all_cons, Bool.and_eq_true] at hv
      exact hv.1
    have h2 : (v' :: vs).all validScalar = true := by
      simp only [List.all_cons, Bool.and_eq_true] at hv
      simp [hv.2.1, hv.2.2]
    rw [show encodeList (v :: v' :: vs) =
        encodeVal v ++ ',' :: ' ' :: encodeList (v' :: vs) from rfl] at hc
    rcases List.mem_append.mp hc with hc | hc
    · exact encodeVal_no_hash v (validScalar_validVal v h1) c hc
    · rcases List.mem_cons.mp hc with rfl | hc
      · decide
      · rcases List.mem_cons.mp hc with rfl | hc
        · decide
        · exact encodeList_no_hash (v' :: vs) h2 c hc

theorem encodeDict_no_hash (d : List (List Char × PVal)) (hd : validDict d = true) :
    ∀ c ∈ encodeDict d, c ≠ '#' := by
  intro c hc
  match d with
  | [] => simp [encodeDict] at hc
  | (k, v) :: tl =>
    obtain ⟨hk, hv, _, htl⟩ := validDict_facts k v tl hd
    rw [encodeDict_cons] at hc
    rcases List.mem_append.mp hc with hc | hc
    · rcases List.mem_append.mp hc with hc | hc
      · rcases List.mem_append.mp hc with hc | hc
        · exact (okKeyChar_facts c ((validKey_facts k hk).2.1 c hc)).2.2.1
        · cases v <;>
            simp only [List.mem_cons, List.not_mem_nil, or_false] at hc <;>
            first
            | (subst hc; decide)
            | (rcases hc with rfl | rfl <;> decide)
            | (rcases hc with rfl | rfl | rfl <;> decide)
      · exact encodeVal_no_hash v hv c hc
    · rcases List.mem_cons.mp hc with rfl | hc
      · decide
      · exact encodeDict_no_hash tl htl c hc

end

/-! ### The tokenizer on encoder output -/

theorem intToStr_ne_nil (n : Int) : intToStr n ≠ [] := by
  cases n with
  | ofNat m => exact (natToDigitsGo_spec m m le_rfl).2.1
  | negSucc m => simp [intToStr]

theorem st_quote : splitTokens ['"'] = [['"']] := rfl

theorem st_quote_sp : splitTokens ['"', ' '] = [['"']] := rfl

theorem st_lbrack : splitTokens ['['] = [['[']] := rfl

theorem st_rbrack : splitTokens [']'] = [[']']] := rfl

theorem st_rbrace_nl : splitTokens ['}', '\n'] = [['}']] := rfl

theorem splitTokens_key (k : List Char) (hk : validKey k = true) :
    splitTokens k = [k] := by
  obtain ⟨hne, hchars, _, _⟩ := validKey_facts k hk
  exact splitTokens_single k
    (fun c hc => (okKeyChar_facts c (hchars c hc)).1) hne

/-- A one-character token followed by whitespace. -/
theorem splitTokens_char_sp (a : Char) (ha : isSpaceChar a = false)
    (c : Char) (hc : isSpaceChar c = true) (y : List Char) :
    splitTokens (a :: c :: y) = [a] :: splitTokens y := by
  rw [show a :: c :: y = [a] ++ c :: y from rfl, splitTokens_sep c hc,
    splitTokens_single [a]
      (by intro ch hch; simp only [List.mem_singleton] at hch; subst hch; exact ha)
      (by simp)]
  rfl

theorem subPasses_plain_cons (c : Char) (l : List Char) (h : plainChar c = true) :
    subPasses (c :: l) = c :: subPasses l := by
  rw [subPasses_cons c l, subPasses_singleton_plain c h]
  rfl

theorem subPasses_quote_cons (l : List Char) :
    subPasses ('"' :: l) = ' ' :: '"' :: ' ' :: subPasses l := by
  rw [subPasses_cons '"' l]
  rfl

theorem subPasses_lbrack_cons (l : List Char) :
    subPasses ('[' :: l) = '[' :: ' ' :: subPasses l := by
  rw [subPasses_cons '[' l]
  rfl

mutual

theorem tokensVal_spec (v : PVal) (hv : validVal v = true) :
    splitTokens (subPasses (encodeVal v)) = tokensVal v := by
  cases v with
  | int n =>
    rw [show encodeVal (.int n) = intToStr n from rfl,
      subPasses_id _ (fun c hc => (digitOrMinus_plain c (intToStr_chars n c hc)).2.1),
      splitTokens_single _
        (fun c hc => (digitOrMinus_plain c (intToStr_chars n c hc)).1)
        (intToStr_ne_nil n)]
    rfl
  | str s =>
    obtain ⟨hall, _⟩ := validStr_all s hv
    have hplain : ∀ c ∈ s, plainChar c = true :=
      fun c hc => (okStrChar_facts c (hall c hc)).1
    rw [show encodeVal (.str s) = ('"' :: s) ++ ['"'] from rfl, subPasses_append,
      subPasses_quote_cons, subPasses_id s hplain,
      show subPasses ['"'] = [' ', '"', ' '] from rfl]
    simp only [List.cons_append]
    rw [splitTokens_cons_space ' ' (by decide),
      splitTokens_char_sp '"' (by decide) ' ' (by decide),
      splitTokens_sep ' ' (by decide), st_quote_sp,
      show tokensVal (.str s) = ['"'] :: splitTokens s ++ [['"']] from rfl]
    simp
  | list vs =>
    have hv' : vs.all validScalar = true := hv
    rw [show encodeVal (.list vs) = ('[' :: encodeList vs) ++ [']'] from rfl,
      subPasses_append, subPasses_lbrack_cons,
      show subPasses [']'] = [' ', ']'] from rfl]
    simp only [List.cons_append]
    rw [splitTokens_char_sp '[' (by decide) ' ' (by decide),
      splitTokens_sep ' ' (by decide), st_rbrack, tokensList_spec vs hv',
      show tokensVal (.list vs) = ['['] :: tokensList vs ++ [[']']] from rfl]
    simp
  | dict d =>
    have hd' : validDict d = true := hv
    rw [show encodeVal (.dict d) = ('{' :: '\n' :: encodeDict d) ++ ['}', '\n']
        from rfl,
      subPasses_append, subPasses_plain_cons '{' _ (by decide),
      subPasses_plain_cons '\n' _ (by decide),
      show subPasses ['}', '\n'] = ['}', '\n'] from rfl]
    simp only [List.cons_append]
    rw [splitTokens_char_sp '{' (by decide) '\n' (by decide),
      tokensDict_spec d hd' ['}', '\n'], st_rbrace_nl,
      show tokensVal (.dict d) = ['{'] :: tokensDict d ++ [['}']] from rfl]
    simp

theorem tokensList_spec (vs : List PVal) (hv : vs.all validScalar = true) :
    splitTokens (subPasses (encodeList vs)) = tokensList vs := by
  match vs with
  | [] => rfl
  | [v] =>
    have h1 : validScalar v = true := by simpa using hv
    rw [show encodeList [v] = encodeVal v from rfl,
      tokensVal_spec v (validScalar_validVal v h1),
      show tokensList [v] = tokensVal v ++ tokensList [] from rfl]
    simp [tokensList]
  | v :: v' :: vs' =>
    have h1 : validScalar v = true := by
      simp only [List.all_cons, Bool.and_eq_true] at hv
      exact hv.1
    have h2 : (v' :: vs').all validScalar = true := by
      simp only [List.all_cons, Bool.and_eq_true] at hv
      simp [hv.2.1, hv.2.2]
    rw [show encodeList (v :: v' :: vs') =
        encodeVal v ++ ',' :: ' ' :: encodeList (v' :: vs') from rfl,
      subPasses_append, subPasses_cons ',' (' ' :: encodeList (v' :: vs')),
      subPasses_plain_cons ' ' _ (by decide),
      show subPasses [','] = [] from rfl]
    simp only [List.nil_append]
    rw [splitTokens_sep ' ' (by decide),
      tokensVal_spec v (validScalar_validVal v h1), tokensList_spec (v' :: vs') h2,
      show tokensList (v :: v' :: vs') = tokensVal v ++ tokensList (v' :: vs')
        from rfl]

theorem tokensDict_spec (d : List (List Char × PVal)) (hd : validDict d = true) :
    ∀ X : List Char,
    splitTokens (subPasses (encodeDict d) ++ X) = tokensDict d ++ splitTokens X := by
  match d with
  | [] =>
    intro X
    rw [show subPasses (encodeDict []) = [] from rfl]
    simp [tokensDict]
  | (k, v) :: tl =>
    intro X
    obtain ⟨hk, hv, _, htl⟩ := validDict_facts k v tl hd
    obtain ⟨hkne, hkchars, _, _⟩ := validKey_facts k hk
    have hkplain : ∀ c ∈ k, plainChar c = true :=
      fun c hc => (okKeyChar_facts c (hkchars c hc)).2.1
    rw [encodeDict_cons, subPasses_append, subPasses_append, subPasses_append,
      subPasses_id k hkplain,
      subPasses_plain_cons '\n' _ (by decide)]
    cases v with
    | int n =>
      rw [show subPasses (match PVal.int n with
          | PVal.dict _ => [' ']
          | _ => [' ', '=', ' ']) = [' ', ' '] from rfl]
      simp only [List.append_assoc, List.cons_append, List.nil_append]
      rw [splitTokens_sep ' ' (by decide), splitTokens_cons_space ' ' (by decide),
        splitTokens_sep '\n' (by decide), tokensVal_spec (.int n) hv,
        tokensDict_spec tl htl X, splitTokens_key k hk,
        show tokensDict ((k, .int n) :: tl) =
          k :: tokensVal (.int n) ++ tokensDict tl from rfl]
      simp
    | str s =>
      rw [show subPasses (match PVal.str s with
          | PVal.dict _ => [' ']
          | _ => [' ', '=', ' ']) = [' ', ' '] from rfl]
      simp only [List.append_assoc, List.cons_append, List.nil_append]
      rw [splitTokens_sep ' ' (by decide), splitTokens_cons_space ' ' (by decide),
        splitTokens_sep '\n' (by decide), tokensVal_spec (.str s) hv,
        tokensDict_spec tl htl X, splitTokens_key k hk,
        show tokensDict ((k, .str s) :: tl) =
          k :: tokensVal (.str s) ++ tokensDict tl from rfl]
      simp
    | list vs =>
      rw [show subPasses (match PVal.list vs with
          | PVal.dict _ => [' ']
          | _ => [' ', '=', ' ']) = [' ', ' '] from rfl]
      simp only [List.append_assoc, List.cons_append, List.nil_append]
      rw [splitTokens_sep ' ' (by decide), splitTokens_cons_space ' ' (by decide),
        splitTokens_sep '\n' (by decide), tokensVal_spec (.list vs) hv,
        tokensDict_spec tl htl X, splitTokens_key k hk,
        show tokensDict ((k, .list vs) :: tl) =
          k :: tokensVal (.list vs) ++ tokensDict tl from rfl]
      simp
    | dict d' =>
      rw [show subPasses (match PVal.dict d' with
          | PVal.dict _ => [' ']
          | _ => [' ', '=', ' ']) = [' '] from rfl]
      simp only [List.append_assoc, List.cons_append, List.nil_append]
      rw [splitTokens_sep ' ' (by decide),
        splitTokens_sep '\n' (by decide), tokensVal_spec (.dict d') hv,
        tokensDict_spec tl htl X, splitTokens_key k hk,
        show tokensDict ((k, .dict d') :: tl) =
          k :: tokensVal (.dict d') ++ tokensDict tl from rfl]
      simp

end

/-! ### Tokenizing the encoder output -/

theorem splitTokens_collapse (l : List Char) :
    splitTokens (collapseWs l) = splitTokens l :=
  splitAux_collapse l []

theorem tokenize_encodeData (d : List (List Char × PVal)) (hd : validDict d = true) :
    tokenize (encodeData d) = tokensDict d := by
  have hsc : stripComments (encodeDict d ++ ['\x00']) = encodeDict d ++ ['\x00'] := by
    apply stripComments_id
    intro c hc
    rcases List.mem_append.mp hc with hc | hc
    · exact encodeDict_no_hash d hd c hc
    · simp only [List.mem_singleton] at hc
      subst hc
      decide
  show splitTokens (dropTrailNul (collapseWs (subPasses
      (stripComments (encodeDict d ++ ['\x00']))))) = tokensDict d
  rw [hsc, subPasses_append, subPasses_singleton_plain '\x00' (by decide),
    collapseWs_concat_nonspace '\x00' (by decide), dropTrailNul_concat,
    splitTokens_collapse]
  have h := tokensDict_spec d hd []
  rw [List.append_nil, show splitTokens ([] : List Char) = [] from rfl,
    List.append_nil] at h
  exact h

/-- Splitter tokens are nonempty, whitespace-free words over the input. -/
theorem splitTokens_tokens (l : List Char) :
    ∀ t ∈ splitTokens l, t ≠ [] ∧ ∀ ch ∈ t, isSpaceChar ch = false ∧ ch ∈ l := by
  intro t ht
  have h := splitAux_tokens l [] (by simp) t ht
  refine ⟨h.1, fun ch hch => ⟨(h.2 ch hch).1, ?_⟩⟩
  rcases (h.2 ch hch).2 with h' | h'
  · exact h'
  · simp at h'

/-! ### `parse_str` reconstructs the single-space joining of its tokens -/

theorem unsplit_cons (w : List Char) (ws : List (List Char)) (h : ws ≠ []) :
    unsplit (w :: ws) = w ++ ' ' :: unsplit ws := by
  match ws with
  | [] => exact absurd rfl h
  | a :: b => rfl

theorem unsplit_head_nonspace (ws : List (List Char))
    (h : ∀ w ∈ ws, w ≠ [] ∧ ∀ ch ∈ w, isSpaceChar ch = false) (hne : ws ≠ []) :
    ∃ c t, unsplit ws = c :: t ∧ isSpaceChar c = false := by
  match ws with
  | [] => exact absurd rfl hne
  | w :: ws' =>
    obtain ⟨hwne, hwch⟩ := h w (by simp)
    match w, hwne with
    | c :: w'', _ =>
      cases ws' with
      | nil => exact ⟨c, w'', rfl, hwch c (by simp)⟩
      | cons a b =>
        exact ⟨c, w'' ++ ' ' :: unsplit (a :: b),
          by rw [unsplit_cons _ _ (by simp)]; rfl, hwch c (by simp)⟩

theorem unsplit_last_nonspace (ws : List (List Char))
    (h : ∀ w ∈ ws, w ≠ [] ∧ ∀ ch ∈ w, isSpaceChar ch = false) (hne : ws ≠ []) :
    ∃ t c, unsplit ws = t ++ [c] ∧ isSpaceChar c = false := by
  induction ws with
  | nil => exact absurd rfl hne
  | cons w ws' ih =>
    cases ws' with
    | nil =>
      obtain ⟨hwne, hwch⟩ := h w (by simp)
      exact ⟨w.dropLast, w.getLast hwne, (List.dropLast_append_getLast hwne).symm,
        hwch _ (List.getLast_mem hwne)⟩
    | cons a b =>
      obtain ⟨t, c, he, hc⟩ := ih (fun x hx => h x (by simp [hx])) (by simp)
      refine ⟨w ++ ' ' :: t, c, ?_, hc⟩
      rw [unsplit_cons _ _ (by simp), he]
      simp

theorem pyStrip_space_unsplit (ws : List (List Char))
    (h : ∀ w ∈ ws, w ≠ [] ∧ ∀ ch ∈ w, isSpaceChar ch = false) :
    pyStrip (' ' :: unsplit ws) = unsplit ws := by
  match ws with
  | [] => rfl
  | w :: ws' =>
    obtain ⟨c, t, he1, hc1⟩ := unsplit_head_nonspace (w :: ws') h (by simp)
    obtain ⟨t2, c2, he2, hc2⟩ := unsplit_last_nonspace (w :: ws') h (by simp)
    show ((((' ' :: unsplit (w :: ws')).dropWhile
        isSpaceChar).reverse.dropWhile isSpaceChar)).reverse = unsplit (w :: ws')
    rw [List.dropWhile_cons, if_pos (by decide), he1, List.dropWhile_cons,
      if_neg (by simp [hc1]), ← he1, he2, List.reverse_append,
      show ([c2] : List Char).reverse = [c2] from rfl, List.singleton_append,
      List.dropWhile_cons, if_neg (by simp [hc2])]
    simp

theorem parseStrGo_run (ws : List (List Char)) :
    ∀ (acc val : List Char) (rest : List (List Char)), val ≠ ['"'] →
    (∀ w ∈ ws, w ≠ ['"']) →
    parseStrGo acc val (ws ++ ['"'] :: rest) =
      some (pyStrip (acc ++ ' ' :: unsplit (val :: ws)), rest) := by
  induction ws with
  | nil =>
    intro acc val rest hval _
    rw [List.nil_append, parseStrGo.eq_def, if_neg hval]
    show parseStrGo (acc ++ ' ' :: val) ['"'] rest = _
    rw [parseStrGo.eq_def, if_pos rfl]
    rfl
  | cons w ws' ih =>
    intro acc val rest hval hws
    rw [List.cons_append, parseStrGo.eq_def, if_neg hval]
    show parseStrGo (acc ++ ' ' :: val) w (ws' ++ ['"'] :: rest) = _
    rw [ih (acc ++ ' ' :: val) w rest (hws w (by simp))
      (fun x hx => hws x (by simp [hx])),
      unsplit_cons val (w :: ws') (by simp)]
    simp [List.append_assoc]

/-! ### `parse_val` on encoder tokens -/

theorem intToStr_ne_single (n : Int) (c : Char) (hd : isDigitChar c = false)
    (hm : c ≠ '-') : intToStr n ≠ [c] := by
  intro he
  have hc : c ∈ intToStr n := by rw [he]; simp
  rcases intToStr_chars n c hc with h | h
  · rw [hd] at h
    exact Bool.false_ne_true h
  · exact hm h

theorem parseVal_int (n : Int) (data : List (List Char)) :
    parseVal (intToStr n) data = some (.int n, data) := by
  simp only [parseVal]
  rw [if_neg (intToStr_ne_single n '"' (by decide) (by decide)),
    parseIntTok_intToStr]
  rfl

theorem parseVal_str (s : List Char) (hs : validStr s = true)
    (rest : List (List Char)) :
    parseVal ['"'] ((splitTokens s ++ [['"']]) ++ rest) = some (.str s, rest) := by
  obtain ⟨hall, hs2⟩ := validStr_all s hs
  have hgood : ∀ w ∈ splitTokens s, w ≠ [] ∧ ∀ ch ∈ w, isSpaceChar ch = false :=
    fun w hw => ⟨(splitTokens_tokens s w hw).1,
      fun ch hch => ((splitTokens_tokens s w hw).2 ch hch).1⟩
  have hnq : ∀ w ∈ splitTokens s, w ≠ ['"'] := by
    intro w hw he
    have hmem : '"' ∈ w := by rw [he]; simp
    exact absurd (hall '"' (((splitTokens_tokens s w hw).2 '"' hmem).2)) (by decide)
  cases hsp : splitTokens s with
  | nil =>
    have hse : s = [] := by rw [hs2, hsp]; rfl
    rw [List.nil_append, List.singleton_append]
    simp only [parseVal, if_pos rfl]
    show (parseStrGo [] ['"'] rest).map _ = _
    rw [parseStrGo.eq_def, if_pos rfl]
    rw [hse]
    rfl
  | cons w ws =>
    rw [show ((w :: ws) ++ [['"']]) ++ rest = w :: (ws ++ ['"'] :: rest) by
      simp]
    simp only [parseVal, if_pos rfl]
    show (parseStrGo [] w (ws ++ ['"'] :: rest)).map _ = _
    rw [parseStrGo_run ws [] w rest (hnq w (by rw [hsp]; simp))
      (fun x hx => hnq x (by rw [hsp]; simp [hx])),
      List.nil_append,
      pyStrip_space_unsplit (w :: ws) (by rw [← hsp]; exact hgood)]
    rw [show unsplit (w :: ws) = s by rw [← hsp, ← hs2]]
    rfl

/-! ### One-step unfolding of the fueled parsers -/

theorem parseObj_cons (f : Nat) (val : List Char) (rest : List (List Char)) :
    parseObj (f + 1) (val :: rest) =
      if val = ['{'] then
        match rest with
        | [] => none
        | v :: r => (parseDict f [] v r).map (fun p => (PVal.dict p.1, p.2))
      else if val = ['['] then
        match rest with
        | [] => none
        | v :: r => (parseArray f v r).map (fun p => (PVal.list p.1, p.2))
      else parseVal val rest := rfl

theorem parseArray_step (f : Nat) (val : List Char) (data : List (List Char)) :
    parseArray (f + 1) val data =
      (if val = [']'] then some ([], data)
      else
        match parseVal val data with
        | none => none
        | some (v, d) =>
          match d with
          | [] => none
          | t :: r => (parseArray f t r).map (fun p => (v :: p.1, p.2))) := rfl

theorem parseDict_step (f : Nat) (acc : List (List Char × PVal)) (val : List Char)
    (data : List (List Char)) :
    parseDict (f + 1) acc val data =
      (if val = ['}'] then some (acc, data)
      else
        match parseObj f data with
        | none => none
        | some (v, d) =>
          match d with
          | [] => some (dictSet acc val v, [])
          | t :: r => parseDict f (dictSet acc val v) t r) := rfl

/-! ### The parser consumes exactly the encoder's tokens -/

theorem dictSet_append (acc : List (List Char × PVal)) (k : List Char) (v : PVal)
    (h : ∀ q ∈ acc, q.1 ≠ k) : dictSet acc k v = acc ++ [(k, v)] := by
  rw [dictSet, if_neg]
  intro hcon
  rw [List.any_eq_true] at hcon
  obtain ⟨q, hq, he⟩ := hcon
  exact h q hq (by simpa using he)

theorem parseVal_scalar (v : PVal) (hv : validScalar v = true)
    (rest : List (List Char)) :
    ∃ h t, tokensVal v ++ rest = h :: t ∧ h ≠ ['{'] ∧ h ≠ ['['] ∧ h ≠ [']'] ∧
      h ≠ ['}'] ∧ parseVal h t = some (v, rest) := by
  cases v with
  | int n =>
    refine ⟨intToStr n, rest, rfl, ?_, ?_, ?_, ?_, parseVal_int n rest⟩ <;>
      exact intToStr_ne_single n _ (by decide) (by decide)
  | str s =>
    exact ⟨['"'], (splitTokens s ++ [['"']]) ++ rest, by simp [tokensVal],
      by decide, by decide, by decide, by decide, parseVal_str s hv rest⟩
  | list vs => exact absurd hv (by simp [validScalar])
  | dict d => exact absurd hv (by simp [validScalar])

theorem parseArrayAt_tokens (vs : List PVal) :
    ∀ (f : Nat) (rest : List (List Char)), vs.all validScalar = true →
    parseArrayAt (f + costList vs) ((tokensList vs ++ [[']']]) ++ rest) =
      some (vs, rest) := by
  induction vs with
  | nil =>
    intro f rest _
    show parseArray (f + 1) [']'] rest = some ([], rest)
    rw [parseArray_step, if_pos rfl]
  | cons v vs' ih =>
    intro f rest hvs
    simp only [List.all_cons, Bool.and_eq_true] at hvs
    obtain ⟨a, b, hab, _, _, hner, _, hpv⟩ :=
      parseVal_scalar v hvs.1 ((tokensList vs' ++ [[']']]) ++ rest)
    have hdata : (tokensList (v :: vs') ++ [[']']]) ++ rest = a :: b := by
      rw [show tokensList (v :: vs') = tokensVal v ++ tokensList vs' from rfl,
        ← hab]
      simp
    rw [hdata]
    show parseArray ((f + costList vs') + 1) a b = some (v :: vs', rest)
    rw [parseArray_step, if_neg hner, hpv]
    obtain ⟨a', b', hab'⟩ :
        ∃ a' b', (tokensList vs' ++ [[']']]) ++ rest = a' :: b' := by
      cases tokensList vs' with
      | nil => exact ⟨[']'], rest, by simp⟩
      | cons x xs => exact ⟨x, (xs ++ [[']']]) ++ rest, by simp⟩
    rw [hab']
    show (parseArray (f + costList vs') a' b').map
      (fun p => (v :: p.1, p.2)) = some (v :: vs', rest)
    rw [show parseArray (f + costList vs') a' b' =
        parseArrayAt (f + costList vs') (a' :: b') from rfl, ← hab',
      ih f rest hvs.2]
    rfl

mutual

theorem parseObj_tokens (v : PVal) (f : Nat) (rest : List (List Char))
    (hv : validVal v = true) :
    parseObj (f + costVal v) (tokensVal v ++ rest) = some (v, rest) := by
  cases v with
  | int n =>
    show parseObj (f + 1) (intToStr n :: rest) = some (.int n, rest)
    rw [parseObj_cons, if_neg (intToStr_ne_single n '{' (by decide) (by decide)),
      if_neg (intToStr_ne_single n '[' (by decide) (by decide)), parseVal_int]
  | str s =>
    show parseObj (f + 1) (['"'] :: ((splitTokens s ++ [['"']]) ++ rest)) =
      some (.str s, rest)
    rw [parseObj_cons, if_neg (by decide), if_neg (by decide),
      parseVal_str s hv rest]
  | list vs =>
    show parseObj ((f + costList vs) + 1)
      (['['] :: ((tokensList vs ++ [[']']]) ++ rest)) = some (.list vs, rest)
    rw [parseObj_cons, if_neg (by decide), if_pos rfl]
    obtain ⟨a, b, hab⟩ :
        ∃ a b, (tokensList vs ++ [[']']]) ++ rest = a :: b := by
      cases tokensList vs with
      | nil => exact ⟨[']'], rest, by simp⟩
      | cons x xs => exact ⟨x, (xs ++ [[']']]) ++ rest, by simp⟩
    rw [hab]
    show (parseArray (f + costList vs) a b).map
      (fun p => (PVal.list p.1, p.2)) = some (.list vs, rest)
    rw [show parseArray (f + costList vs) a b =
        parseArrayAt (f + costList vs) (a :: b) from rfl, ← hab,
      parseArrayAt_tokens vs f rest hv]
    rfl
  | dict d =>
    show parseObj ((f + costDict d) + 1)
      (['{'] :: ((tokensDict d ++ [['}']]) ++ rest)) = some (.dict d, rest)
    rw [parseObj_cons, if_pos rfl]
    obtain ⟨a, b, hab⟩ :
        ∃ a b, (tokensDict d ++ [['}']]) ++ rest = a :: b := by
      cases tokensDict d with
      | nil => exact ⟨['}'], rest, by simp⟩
      | cons x xs => exact ⟨x, (xs ++ [['}']]) ++ rest, by simp⟩
    rw [hab]
    show (parseDict (f + costDict d) [] a b).map
      (fun p => (PVal.dict p.1, p.2)) = some (.dict d, rest)
    rw [show parseDict (f + costDict d) [] a b =
        parseDictAt (f + costDict d) [] (a :: b) from rfl, ← hab,
      parseDictAt_tokens d f [] rest hv (by simp)]
    rfl

theorem parseDictAt_tokens (d : List (List Char × PVal)) (f : Nat)
    (acc : List (List Char × PVal)) (rest : List (List Char))
    (hd : validDict d = true)
    (hdisj : ∀ p ∈ d, ∀ q ∈ acc, q.1 ≠ p.1) :
    parseDictAt (f + costDict d) acc ((tokensDict d ++ [['}']]) ++ rest) =
      some (acc ++ d, rest) := by
  match d with
  | [] =>
    show parseDict (f + 1) acc ['}'] rest = some (acc ++ [], rest)
    rw [parseDict_step, if_pos rfl, List.append_nil]
  | (k, v) :: tl =>
    obtain ⟨hk, hv, hkey, htl⟩ := validDict_facts k v tl hd
    have hdata : (tokensDict ((k, v) :: tl) ++ [['}']]) ++ rest =
        k :: (tokensVal v ++ ((tokensDict tl ++ [['}']]) ++ rest)) := by
      rw [show tokensDict ((k, v) :: tl) = k :: tokensVal v ++ tokensDict tl
        from rfl]
      simp
    rw [hdata]
    show parseDict (f + (costVal v + costDict tl + 1)) acc k
      (tokensVal v ++ ((tokensDict tl ++ [['}']]) ++ rest)) =
      some (acc ++ (k, v) :: tl, rest)
    rw [show f + (costVal v + costDict tl + 1) =
      ((f + costDict tl) + costVal v) + 1 from by omega]
    rw [parseDict_step, if_neg (validKey_facts k hk).2.2.2,
      parseObj_tokens v (f + costDict tl) _ hv]
    obtain ⟨a, b, hab⟩ :
        ∃ a b, (tokensDict tl ++ [['}']]) ++ rest = a :: b := by
      cases tokensDict tl with
      | nil => exact ⟨['}'], rest, by simp⟩
      | cons x xs => exact ⟨x, (xs ++ [['}']]) ++ rest, by simp⟩
    rw [hab]
    have hacc : dictSet acc k v = acc ++ [(k, v)] :=
      dictSet_append acc k v (fun q hq => hdisj (k, v) (by simp) q hq)
    show parseDict ((f + costDict tl) + costVal v) (dictSet acc k v) a b =
      some (acc ++ (k, v) :: tl, rest)
    rw [hacc, show parseDict ((f + costDict tl) + costVal v)
        (acc ++ [(k, v)]) a b =
        parseDictAt ((f + costDict tl) + costVal v) (acc ++ [(k, v)]) (a :: b)
        from rfl, ← hab,
      show (f + costDict tl) + costVal v = (f + costVal v) + costDict tl
        from by omega]
    rw [parseDictAt_tokens tl (f + costVal v) (acc ++ [(k, v)]) rest htl ?hdj]
    case hdj =>
      intro p hp q hq
      rcases List.mem_append.mp hq with hq | hq
      · exact hdisj p (by simp [hp]) q hq
      · simp only [List.mem_singleton] at hq
        subst hq
        exact fun he => hkey p hp he.symm
    simp

end

/-! ### The brace-less top level -/

theorem parseDictAt_top (d : List (List Char × PVal)) :
    ∀ (f : Nat) (acc : List (List Char × PVal)), validDict d = true → d ≠ [] →
    (∀ p ∈ d, ∀ q ∈ acc, q.1 ≠ p.1) →
    parseDictAt (f + costDict d) acc (tokensDict d) = some (acc ++ d, []) := by
  induction d with
  | nil =>
    intro f acc _ hne _
    exact absurd rfl hne
  | cons kv tl ih =>
    obtain ⟨k, v⟩ := kv
    intro f acc hd _ hdisj
    obtain ⟨hk, hv, hkey, htl⟩ := validDict_facts k v tl hd
    rw [show tokensDict ((k, v) :: tl) = k :: (tokensVal v ++ tokensDict tl)
      from rfl]
    show parseDict (f + (costVal v + costDict tl + 1)) acc k
      (tokensVal v ++ tokensDict tl) = some (acc ++ (k, v) :: tl, [])
    rw [show f + (costVal v + costDict tl + 1) =
      ((f + costDict tl) + costVal v) + 1 from by omega]
    rw [parseDict_step, if_neg (validKey_facts k hk).2.2.2,
      parseObj_tokens v (f + costDict tl) _ hv]
    have hacc : dictSet acc k v = acc ++ [(k, v)] :=
      dictSet_append acc k v (fun q hq => hdisj (k, v) (by simp) q hq)
    cases htt : tokensDict tl with
    | nil =>
      have htlnil : tl = [] := by
        cases tl with
        | nil => rfl
        | cons p tl' =>
          obtain ⟨k', v'⟩ := p
          rw [show tokensDict ((k', v') :: tl') =
            k' :: tokensVal v' ++ tokensDict tl' from rfl] at htt
          exact absurd htt (by simp)
      subst htlnil
      show some (dictSet acc k v, []) = some (acc ++ [(k, v)], [])
      rw [hacc]
    | cons a b =>
      have htlne : tl ≠ [] := by
        intro he
        subst he
        exact List.noConfusion htt
      show parseDict ((f + costDict tl) + costVal v) (dictSet acc k v) a b =
        some (acc ++ (k, v) :: tl, [])
      rw [hacc, show parseDict ((f + costDict tl) + costVal v)
          (acc ++ [(k, v)]) a b =
          parseDictAt ((f + costDict tl) + costVal v) (acc ++ [(k, v)]) (a :: b)
          from rfl, ← htt,
        show (f + costDict tl) + costVal v = (f + costVal v) + costDict tl
          from by omega]
      rw [ih (f + costVal v) (acc ++ [(k, v)]) htl htlne ?hdj]
      case hdj =>
        intro p hp q hq
        rcases List.mem_append.mp hq with hq | hq
        · exact hdisj p (by simp [hp]) q hq
        · simp only [List.mem_singleton] at hq
          subst hq
          exact fun he => hkey p hp he.symm
      simp

/-! ### The decoder's fuel is ample -/

theorem tokensVal_length_pos (v : PVal) : 1 ≤ (tokensVal v).length := by
  cases v <;> simp [tokensVal]

mutual

theorem costVal_le (v : PVal) : costVal v + 1 ≤ 2 * (tokensVal v).length := by
  cases v with
  | int n => simp [tokensVal, costVal]
  | str s => simp [tokensVal, costVal]
  | list vs =>
    have h := costList_le vs
    simp only [tokensVal, costVal, List.length_cons, List.length_append]
    omega
  | dict d =>
    have h := costDict_le d
    simp only [tokensVal, costVal, List.length_cons, List.length_append]
    omega

theorem costList_le (vs : List PVal) :
    costList vs ≤ 2 * (tokensList vs).length + 1 := by
  cases vs with
  | nil => decide
  | cons v vs' =>
    have h1 := costList_le vs'
    have h2 := tokensVal_length_pos v
    simp only [costList, tokensList, List.length_append]
    omega

theorem costDict_le (d : List (List Char × PVal)) :
    costDict d ≤ 2 * (tokensDict d).length + 1 := by
  cases d with
  | nil => decide
  | cons kv tl =>
    obtain ⟨k, v⟩ := kv
    have h1 := costVal_le v
    have h2 := costDict_le tl
    simp only [costDict, tokensDict, List.length_cons, List.length_append]
    omega

end

/-- C1: round trip.  For every valid decoded metadata mapping
`M = (k, v) :: tl` (nonempty, as every decoded mapping is: the volume
group name is its first key; keys are admissible tokens and unique per
mapping, strings survive the tokenizer, sequence elements are scalars),
`decode_data (encode_data M)` succeeds and returns the name `k`
together with a mapping structurally equal to `M`, key order and
nesting preserved. -/
theorem c1_roundtrip (k : List Char) (v : PVal) (tl : List (List Char × PVal))
    (hd : validDict ((k, v) :: tl) = true) :
    decodeData (encodeData ((k, v) :: tl)) = some (k, (k, v) :: tl) := by
  have htok := tokenize_encodeData ((k, v) :: tl) hd
  have hcons : tokenize (encodeData ((k, v) :: tl)) =
      k :: (tokensVal v ++ tokensDict tl) := by
    rw [htok]
    rfl
  simp only [decodeData, hcons]
  show (parseDict (2 * (k :: (tokensVal v ++ tokensDict tl)).length + 2) [] k
    (tokensVal v ++ tokensDict tl)).map (fun p => (k, p.1)) =
    some (k, (k, v) :: tl)
  have hb : costDict ((k, v) :: tl) ≤
      2 * (k :: (tokensVal v ++ tokensDict tl)).length + 2 := by
    have h := costDict_le ((k, v) :: tl)
    rw [show tokensDict ((k, v) :: tl) = k :: tokensVal v ++ tokensDict tl
      from rfl] at h
    simp only [List.length_cons, List.length_append] at h ⊢
    omega
  rw [show parseDict (2 * (k :: (tokensVal v ++ tokensDict tl)).length + 2) [] k
      (tokensVal v ++ tokensDict tl) =
      parseDictAt (2 * (k :: (tokensVal v ++ tokensDict tl)).length + 2) []
      (tokensDict ((k, v) :: tl)) from rfl]
  rw [show 2 * (k :: (tokensVal v ++ tokensDict tl)).length + 2 =
    (2 * (k :: (tokensVal v ++ tokensDict tl)).length + 2 -
      costDict ((k, v) :: tl)) + costDict ((k, v) :: tl) from by omega]
  rw [parseDictAt_top ((k, v) :: tl) _ [] hd (by simp) (by simp)]
  rfl

theorem c1_witness :
    validDict [(String.toList "vg0", PVal.dict
      [(String.toList "id", PVal.str (String.toList "abc xyz")),
       (String.toList "seqno", PVal.int 3),
       (String.toList "extent", PVal.int (-17)),
       (String.toList "pvs",
         PVal.list [PVal.int 1, PVal.str (String.toList "pv0")])])] = true ∧
    decodeData (encodeData [(String.toList "vg0", PVal.dict
      [(String.toList "id", PVal.str (String.toList "abc xyz")),
       (String.toList "seqno", PVal.int 3),
       (String.toList "extent", PVal.int (-17)),
       (String.toList "pvs",
         PVal.list [PVal.int 1, PVal.str (String.toList "pv0")])])]) =
      some (String.toList "vg0", [(String.toList "vg0", PVal.dict
      [(String.toList "id", PVal.str (String.toList "abc xyz")),
       (String.toList "seqno", PVal.int 3),
       (String.toList "extent", PVal.int (-17)),
       (String.toList "pvs",
         PVal.list [PVal.int 1, PVal.str (String.toList "pv0")])])]) :=
  ⟨by decide, c1_roundtrip _ _ _ (by decide)⟩

end Lvm
